import Mathlib

/-!
Verification of the dental-note annotation pipeline (Block1 normalization /
tokenization / validation / operation application, Block2 gazetteer matching,
alias resolution and hybrid ranking).

Strings are embedded as `List Char` (one element per Unicode code point, the
same view Python's `str` offers).  Python regular expressions are embedded by
their matching semantics on the concrete patterns that appear in the source,
and Python float scores are embedded as rationals (`ℚ`).

`unicodedata.normalize('NFC', ·)` (Python standard library, external to the
repository) is modelled as the identity on the code-point sequence: the
pipeline never inspects the NFC step's effect, and canonical composition
neither creates nor destroys decimal-digit characters, which is the only
property the verified claims depend on.
-/

namespace Dentil

/-- Python `\d` on the ASCII digits `0`–`9` (the digit alphabet the
pipeline's data actually carries; Unicode digits outside ASCII are not
modelled). -/
def isDigitC (c : Char) : Bool := decide (48 ≤ c.toNat ∧ c.toNat ≤ 57)

/-- The character class `[֐-׿]` (Hebrew block, `U+0590`–`U+05FF`) used by
the normalizer and tokenizer regexes. -/
def isHebBlock (c : Char) : Bool := decide (0x0590 ≤ c.toNat ∧ c.toNat ≤ 0x05FF)

/-- The character class `[a-zA-Z]`. -/
def isLatin (c : Char) : Bool :=
  decide ((97 ≤ c.toNat ∧ c.toNat ≤ 122) ∨ (65 ≤ c.toNat ∧ c.toNat ≤ 90))

/-- Python `\s` / `str.strip()` whitespace, restricted to the code points the
pipeline's data can contain: space, tab, LF, VT, FF, CR, NEL, NBSP. -/
def isPySpace (c : Char) : Bool :=
  decide (c.toNat = 32 ∨ c.toNat = 9 ∨ c.toNat = 10 ∨ c.toNat = 13 ∨ c.toNat = 11 ∨
    c.toNat = 12 ∨ c.toNat = 0x85 ∨ c.toNat = 0xA0)

/-- The pair separators `{/, \, -}` of `N0Normalizer.pair_pattern`. -/
def sepChars : List Char := ['/', '\\', '-']

/-! ## Block1 data model (`src/block1/src/common/schemas.py`)

`dates`/`times` of `NormalizationResult` are omitted: they are filled from the
text by read-only regex extraction and no verified claim mentions them. -/

structure Pair where
  text : List Char
  A : List Char
  B : List Char
  sep : Char
  span : Nat × Nat
  deriving Repr, DecidableEq

structure NormalizationResult where
  raw_text : List Char
  normalized_text : List Char
  numbers : List (List Char)
  pairs : List Pair
  units_found : List (List Char)
  notes : List (List Char)
  deriving Repr, DecidableEq

inductive TokenKind where
  | word | number | pair | unit | punct
  deriving Repr, DecidableEq

inductive Script where
  | he | en | digit | mixed
  deriving Repr, DecidableEq

structure TokenMeta where
  A : List Char
  B : List Char
  sep : Char
  deriving Repr, DecidableEq

structure Token where
  idx : Nat
  text : List Char
  kind : TokenKind
  span : Nat × Nat
  script : Option Script
  meta : Option TokenMeta
  deriving Repr, DecidableEq

instance : BEq TokenKind := ⟨fun a b => decide (a = b)⟩

/-! ## N0 normalizer (`src/block1/src/pipeline/n0_normalize.py`) -/

/-- One `re.sub(r'(X)(Y)', r'\1 \2', text)` pass for disjoint character
classes `X`, `Y`: a single space is inserted between every adjacent `X`,`Y`
boundary.  (For disjoint classes the sub-scan position after a match cannot
start a new match, so the regex pass inserts at exactly these boundaries.) -/
def insertBetween (p q : Char → Bool) : List Char → List Char
  | [] => []
  | [c] => [c]
  | a :: b :: rest =>
    if p a && q b then a :: ' ' :: insertBetween p q (b :: rest)
    else a :: insertBetween p q (b :: rest)

/-- `N0Normalizer._insert_spaces`: four passes, each recording a note when it
changed the text (a `re.sub` changes the text iff it inserted at least one
space, iff the result differs from the input). -/
def insert_spaces (t : List Char) : List Char × List (List Char) :=
  let t1 := insertBetween isHebBlock isDigitC t
  let n1 : List (List Char) := if t1 ≠ t then ["inserted_space_hebrew_digit".toList] else []
  let t2 := insertBetween isDigitC isHebBlock t1
  let n2 := if t2 ≠ t1 then ["inserted_space_digit_hebrew".toList] else []
  let t3 := insertBetween isLatin isDigitC t2
  let n3 := if t3 ≠ t2 then ["inserted_space_english_digit".toList] else []
  let t4 := insertBetween isDigitC isLatin t3
  let n4 := if t4 ≠ t3 then ["inserted_space_digit_english".toList] else []
  (t4, n1 ++ n2 ++ n3 ++ n4)

/-- Python `str.replace(pat, rep)`: left-to-right, non-overlapping.
Structural recursion on explicit fuel (the scan consumes at least one input
character per step, so fuel `l.length` always suffices).  The normalizer only
calls it with non-empty patterns; for an empty pattern the model leaves the
text unchanged. -/
def replaceAllF (pat rep : List Char) : Nat → List Char → List Char
  | 0, l => l
  | _, [] => []
  | fuel + 1, c :: rest =>
    if pat ≠ [] ∧ pat.isPrefixOf (c :: rest) then
      rep ++ replaceAllF pat rep fuel ((c :: rest).drop pat.length)
    else
      c :: replaceAllF pat rep fuel rest

def replaceAll (pat rep : List Char) (l : List Char) : List Char :=
  replaceAllF pat rep l.length l

/-- `N0Normalizer.unit_mappings`, in Python dict insertion order. -/
def unit_mappings : List (List Char × List Char) :=
  [("ממ".toList, "mm".toList),
   ("מ\"מ".toList, "mm".toList),
   ("מילימטר".toList, "mm".toList),
   ("millimeter".toList, "mm".toList),
   ("מעלות".toList, ['°'])]

/-- One iteration of the `for original, normalized in self.unit_mappings`
loop of `N0Normalizer._normalize_units`. -/
def unitStep (acc : List Char × List (List Char)) (m : List Char × List Char) :
    List Char × List (List Char) :=
  if List.IsInfix m.1 acc.1 then
    (replaceAll m.1 m.2 acc.1,
     if m.2 ∈ acc.2 then acc.2 else acc.2 ++ [m.2])
  else acc

/-- `N0Normalizer._normalize_units`. -/
def normalize_units (t : List Char) : List Char × List (List Char) :=
  let res := unit_mappings.foldl unitStep (t, [])
  if ('°' ∈ res.1 ∨ List.IsInfix ("מעלות".toList) res.1) ∧ ['°'] ∉ res.2 then
    (res.1, res.2 ++ [['°']])
  else res

/-- Matching `(\d+)\s*([/\\-])\s*(\d+)` anchored at the head of `l`:
returns `(A, sep, B, total length)`.  All three quantified pieces are greedy
and (because digits, whitespace and the separators are pairwise disjoint)
admit no backtracking. -/
def matchPairHere (l : List Char) : Option (List Char × Char × List Char × Nat) :=
  let A := l.takeWhile isDigitC
  if A.isEmpty then none
  else
    let l1 := l.drop A.length
    let w1 := l1.takeWhile isPySpace
    match l1.drop w1.length with
    | [] => none
    | s :: l2 =>
      if s ∈ sepChars then
        let w2 := l2.takeWhile isPySpace
        let B := (l2.drop w2.length).takeWhile isDigitC
        if B.isEmpty then none
        else some (A, s, B, A.length + w1.length + 1 + w2.length + B.length)
      else none

theorem matchPairHere_len_pos {l : List Char} {A : List Char} {s : Char} {B : List Char}
    {len : Nat} (h : matchPairHere l = some (A, s, B, len)) : 1 ≤ len := by
  unfold matchPairHere at h
  dsimp only at h
  split at h
  · cases h
  · split at h
    · cases h
    · split at h
      · split at h
        · cases h
        · injection h with h1
          injection h1 with h1 h2
          injection h2 with h2 h3
          injection h3 with h3 h4
          omega
      · cases h

/-- `N0Normalizer._find_pairs`: `pair_pattern.finditer`, left-to-right,
non-overlapping; the scan resumes after each match.  Structural recursion on
fuel (each step consumes at least one character — see
`matchPairHere_len_pos` — so fuel `l.length` always suffices). -/
def find_pairs_aux : Nat → List Char → Nat → List Pair
  | 0, _, _ => []
  | _, [], _ => []
  | fuel + 1, c :: rest, i =>
    match matchPairHere (c :: rest) with
    | some (A, s, B, len) =>
      { text := (c :: rest).take len, A := A, B := B, sep := s,
        span := (i, i + len) } :: find_pairs_aux fuel ((c :: rest).drop len) (i + len)
    | none => find_pairs_aux fuel rest (i + 1)

def find_pairs (l : List Char) : List Pair := find_pairs_aux l.length l 0

/-- Matching `re.escape(A) \s* re.escape(sep) \s* re.escape(B)` anchored at
the head of `l`; returns the match length. -/
def matchRelocHere (A : List Char) (sep : Char) (B : List Char) (l : List Char) : Option Nat :=
  if A.isPrefixOf l then
    let l1 := l.drop A.length
    let w1 := l1.takeWhile isPySpace
    match l1.drop w1.length with
    | [] => none
    | s :: l2 =>
      if s = sep then
        let w2 := l2.takeWhile isPySpace
        if B.isPrefixOf (l2.drop w2.length) then
          some (A.length + w1.length + 1 + w2.length + B.length)
        else none
      else none
  else none

/-- `re.search` for the relocation pattern: leftmost match, returned as a
`(start, end)` span. -/
def searchReloc (A : List Char) (sep : Char) (B : List Char) :
    List Char → Nat → Option (Nat × Nat)
  | l, i =>
    match matchRelocHere A sep B l with
    | some len => some (i, i + len)
    | none =>
      match l with
      | [] => none
      | _ :: rest => searchReloc A sep B rest (i + 1)

/-- `N0Normalizer._update_pair_spans`: every pair is re-searched from the
start of the (modified) text; pairs whose pattern is no longer found are
dropped. -/
def update_pair_spans (text : List Char) (origPairs : List Pair) : List Pair :=
  origPairs.filterMap fun p =>
    match searchReloc p.A p.sep p.B text 0 with
    | some (s, e) =>
      some { text := (text.drop s).take (e - s), A := p.A, B := p.B, sep := p.sep,
             span := (s, e) }
    | none => none

/-- `N0Normalizer._extract_numbers`: all maximal digit runs, left to right
(structural recursion on fuel; `l.length` always suffices). -/
def extract_numbersF : Nat → List Char → List (List Char)
  | 0, _ => []
  | _, [] => []
  | fuel + 1, c :: rest =>
    if isDigitC c then
      (c :: rest.takeWhile isDigitC) :: extract_numbersF fuel (rest.dropWhile isDigitC)
    else extract_numbersF fuel rest

def extract_numbers (l : List Char) : List (List Char) := extract_numbersF l.length l

/-- Python `str.rstrip()`. -/
def rstrip (l : List Char) : List Char := (l.reverse.dropWhile isPySpace).reverse

/-- `N0Normalizer.normalize_n0`.  Total on every input string; the empty
input returns the all-empty result, mirroring the early return.  NFC is the
identity on the embedded code-point sequence (see the file header). -/
def normalize_n0 (raw_text : List Char) : NormalizationResult :=
  if raw_text.isEmpty then
    { raw_text := [], normalized_text := [], numbers := [], pairs := [],
      units_found := [], notes := [] }
  else
    let pairs0 := find_pairs raw_text
    let sp := insert_spaces raw_text
    let un := normalize_units sp.1
    let pairs := update_pair_spans un.1 pairs0
    let numbers := extract_numbers un.1
    { raw_text := raw_text, normalized_text := rstrip un.1, numbers := numbers,
      pairs := pairs, units_found := un.2, notes := sp.2 }

/-! ## T1 tokenizer (`src/block1/src/pipeline/t1_tokenize.py`) -/

/-- The `(?:[-־][֐-׿]+)*` continuation of `T1Tokenizer.hebrew_word`,
matched greedily after a maximal Hebrew-block run (structural recursion on
fuel; `l.length` always suffices). -/
def hebWordExtF : Nat → List Char → List Char
  | 0, _ => []
  | _, [] => []
  | fuel + 1, c :: rest =>
    if c = '-' ∨ c = '־' then
      let r := rest.takeWhile isHebBlock
      if r.isEmpty then []
      else c :: (r ++ hebWordExtF fuel (rest.drop r.length))
    else []

def hebWordExt (l : List Char) : List Char := hebWordExtF l.length l

/-- `T1Tokenizer.hebrew_word` (`[֐-׿]+(?:[-־][֐-׿]+)*`) matched at
the head of `l`. -/
def matchHebWord (l : List Char) : Option (List Char) :=
  let r := l.takeWhile isHebBlock
  if r.isEmpty then none else some (r ++ hebWordExt (l.drop r.length))

/-- The `(?:-[a-zA-Z]+)*` continuation of `T1Tokenizer.english_word`
(structural recursion on fuel; `l.length` always suffices). -/
def engWordExtF : Nat → List Char → List Char
  | 0, _ => []
  | _, [] => []
  | fuel + 1, c :: rest =>
    if c = '-' then
      let r := rest.takeWhile isLatin
      if r.isEmpty then []
      else c :: (r ++ engWordExtF fuel (rest.drop r.length))
    else []

def engWordExt (l : List Char) : List Char := engWordExtF l.length l

/-- `T1Tokenizer.english_word` (`[a-zA-Z]+(?:-[a-zA-Z]+)*`) matched at the
head of `l`. -/
def matchEngWord (l : List Char) : Option (List Char) :=
  let r := l.takeWhile isLatin
  if r.isEmpty then none else some (r ++ engWordExt (l.drop r.length))

/-- `T1Tokenizer.number` (`\d+(?:\.\d+)?`) matched at the head of `l`. -/
def matchNumber (l : List Char) : Option (List Char) :=
  let r := l.takeWhile isDigitC
  if r.isEmpty then none
  else
    match l.drop r.length with
    | '.' :: l2 =>
      let r2 := l2.takeWhile isDigitC
      if r2.isEmpty then some r else some (r ++ '.' :: r2)
    | _ => some r

/-- `T1Tokenizer.unit` (`mm|°|cm|%`), alternatives tried left to right. -/
def matchUnit (l : List Char) : Option (List Char) :=
  if ['m', 'm'].isPrefixOf l then some ['m', 'm']
  else if ['°'].isPrefixOf l then some ['°']
  else if ['c', 'm'].isPrefixOf l then some ['c', 'm']
  else if ['%'].isPrefixOf l then some ['%']
  else none

/-- The punctuation class of `T1Tokenizer.punct`
(`[.,;:!?()[\]{}״"'`]`, braces / apostrophe / backtick written by code
point). -/
def punctChars : List Char :=
  ['.', ',', ';', ':', '!', '?', '(', ')', '[', ']',
   Char.ofNat 123, Char.ofNat 125, '״', '"', Char.ofNat 39, Char.ofNat 96]

def matchPunct (l : List Char) : Option (List Char) :=
  match l with
  | [] => none
  | c :: _ => if c ∈ punctChars then some [c] else none

/-- One non-pair, non-whitespace token scanned at position `pos` of the text
(with `suffix = text.drop pos`): Hebrew word, then English word, then number
(suppressed when the number lies inside a recorded pair span, in which case
the scan falls through to the later alternatives), then unit, then
punctuation, then the single-character defensive fallback. -/
def scanToken (pairs : List Pair) (pos idx : Nat) (suffix : List Char) : Token :=
  match matchHebWord suffix with
  | some m =>
    { idx := idx, text := m, kind := .word, span := (pos, pos + m.length),
      script := some .he, meta := none }
  | none =>
  match matchEngWord suffix with
  | some m =>
    { idx := idx, text := m, kind := .word, span := (pos, pos + m.length),
      script := some .en, meta := none }
  | none =>
  match
    (match matchNumber suffix with
     | some m =>
       if pairs.any (fun p => decide (p.span.1 ≤ pos) && decide (pos + m.length ≤ p.span.2))
       then none
       else some ({ idx := idx, text := m, kind := .number, span := (pos, pos + m.length),
                    script := some .digit, meta := none } : Token)
     | none => none) with
  | some t => t
  | none =>
  match matchUnit suffix with
  | some m =>
    { idx := idx, text := m, kind := .unit, span := (pos, pos + m.length),
      script := none, meta := none }
  | none =>
  match matchPunct suffix with
  | some m =>
    { idx := idx, text := m, kind := .punct, span := (pos, pos + m.length),
      script := none, meta := none }
  | none =>
    { idx := idx, text := suffix.take 1, kind := .word, span := (pos, pos + 1),
      script := some .mixed, meta := none }

/-- The `while pos < len(text)` scan of `T1Tokenizer.tokenize_t1`, with
explicit fuel.  Each iteration emits a pair token (when a recorded pair span
starts exactly at `pos`), skips a whitespace run, or emits one `scanToken`;
`text.length + 1` fuel always suffices when every pair span is non-degenerate
(`start < end`), which the claims below assume. -/
def tokenize_loop (text : List Char) (pairs : List Pair) :
    Nat → Nat → Nat → List Token
  | 0, _, _ => []
  | fuel + 1, pos, idx =>
    if pos < text.length then
      match pairs.find? (fun p => p.span.1 == pos) with
      | some p =>
        { idx := idx, text := (text.drop p.span.1).take (p.span.2 - p.span.1),
          kind := .pair, span := (p.span.1, p.span.2), script := some .digit,
          meta := some ⟨p.A, p.B, p.sep⟩ } ::
          tokenize_loop text pairs fuel p.span.2 (idx + 1)
      | none =>
        let suffix := text.drop pos
        let ws := suffix.takeWhile isPySpace
        if ws.isEmpty then
          let tok := scanToken pairs pos idx suffix
          tok :: tokenize_loop text pairs fuel tok.span.2 (idx + 1)
        else
          tokenize_loop text pairs fuel (pos + ws.length) idx
    else []

/-- `T1Tokenizer.tokenize_t1`.  The Python code first stable-sorts the
recorded pairs by span start before the scan. -/
def tokenize_t1 (n0 : NormalizationResult) : List Token :=
  let text := n0.normalized_text
  if text.isEmpty then []
  else
    let ps := n0.pairs.insertionSort (fun p q => p.span.1 ≤ q.span.1)
    tokenize_loop text ps (text.length + 1) 0 0

/-! ## Claim C1: digit preservation of `normalize_n0` -/

theorem isPySpace_not_digit {c : Char} (h : isPySpace c = true) : isDigitC c = false := by
  simp only [isPySpace, decide_eq_true_eq] at h
  simp only [isDigitC, decide_eq_false_iff_not, not_and]
  rcases h with h | h | h | h | h | h | h | h <;> omega

theorem isDigitC_space : isDigitC ' ' = false := by decide

theorem filter_insertBetween (p q : Char → Bool) :
    ∀ l : List Char, (insertBetween p q l).filter isDigitC = l.filter isDigitC
  | [] => by simp [insertBetween]
  | [c] => by simp [insertBetween]
  | a :: b :: rest => by
    simp only [insertBetween]
    split
    · simp only [List.filter_cons, isDigitC_space,
        filter_insertBetween p q (b :: rest), Bool.false_eq_true, if_false]
    · simp only [List.filter_cons, filter_insertBetween p q (b :: rest)]

theorem filter_insert_spaces (t : List Char) :
    (insert_spaces t).1.filter isDigitC = t.filter isDigitC := by
  simp only [insert_spaces, filter_insertBetween]

theorem filter_replaceAllF (pat rep : List Char)
    (hpat : pat.filter isDigitC = []) (hrep : rep.filter isDigitC = []) :
    ∀ fuel, ∀ l : List Char,
      (replaceAllF pat rep fuel l).filter isDigitC = l.filter isDigitC := by
  intro fuel
  induction fuel with
  | zero => intro l; rw [replaceAllF]
  | succ fuel ih =>
    intro l
    match l with
    | [] => rfl
    | c :: rest =>
      rw [replaceAllF]
      split
      · rename_i hcond
        obtain ⟨hne, hpre⟩ := hcond
        obtain ⟨t, ht⟩ := List.isPrefixOf_iff_prefix.mp hpre
        have hdrop : (c :: rest).drop pat.length = t := by
          rw [← ht, List.drop_left]
        rw [List.filter_append, hrep, hdrop, ih t, ← ht,
          List.filter_append, hpat, List.nil_append]
      · simp only [List.filter_cons, ih rest]

theorem filter_replaceAll (pat rep : List Char)
    (hpat : pat.filter isDigitC = []) (hrep : rep.filter isDigitC = [])
    (l : List Char) :
    (replaceAll pat rep l).filter isDigitC = l.filter isDigitC :=
  filter_replaceAllF pat rep hpat hrep l.length l

theorem unit_mappings_digit_free :
    ∀ m ∈ unit_mappings, m.1.filter isDigitC = [] ∧ m.2.filter isDigitC = [] := by
  decide

theorem filter_unitStep (acc : List Char × List (List Char))
    (m : List Char × List Char)
    (hm : m.1.filter isDigitC = [] ∧ m.2.filter isDigitC = []) :
    (unitStep acc m).1.filter isDigitC = acc.1.filter isDigitC := by
  unfold unitStep
  split
  · exact filter_replaceAll m.1 m.2 hm.1 hm.2 acc.1
  · rfl

theorem filter_units_foldl :
    ∀ (ms : List (List Char × List Char)),
      (∀ m ∈ ms, m.1.filter isDigitC = [] ∧ m.2.filter isDigitC = []) →
      ∀ acc : List Char × List (List Char),
        (ms.foldl unitStep acc).1.filter isDigitC = acc.1.filter isDigitC
  | [], _, acc => rfl
  | m :: ms, h, acc => by
    rw [List.foldl_cons,
      filter_units_foldl ms (fun x hx => h x (List.mem_cons_of_mem m hx)) (unitStep acc m),
      filter_unitStep acc m (h m (List.mem_cons_self m ms))]

theorem filter_normalize_units (t : List Char) :
    (normalize_units t).1.filter isDigitC = t.filter isDigitC := by
  unfold normalize_units
  dsimp only
  split
  · exact filter_units_foldl unit_mappings unit_mappings_digit_free (t, [])
  · exact filter_units_foldl unit_mappings unit_mappings_digit_free (t, [])

theorem filter_rstrip (l : List Char) :
    (rstrip l).filter isDigitC = l.filter isDigitC := by
  unfold rstrip
  have hsplit : l.reverse.takeWhile isPySpace ++ l.reverse.dropWhile isPySpace
      = l.reverse := List.takeWhile_append_dropWhile _ _
  have htake : (l.reverse.takeWhile isPySpace).filter isDigitC = [] := by
    rw [List.filter_eq_nil_iff]
    intro c hc
    simp [isPySpace_not_digit (List.mem_takeWhile_imp hc)]
  calc ((l.reverse.dropWhile isPySpace).reverse).filter isDigitC
      = ((l.reverse.dropWhile isPySpace).filter isDigitC).reverse := by
        rw [List.filter_reverse]
    _ = ((l.reverse.takeWhile isPySpace).filter isDigitC
          ++ (l.reverse.dropWhile isPySpace).filter isDigitC).reverse := by
        rw [htake]; simp
    _ = ((l.reverse.filter isDigitC)).reverse := by
        rw [← List.filter_append, hsplit]
    _ = l.filter isDigitC := by rw [List.filter_reverse, List.reverse_reverse]

theorem normalize_n0_digit_list (raw_text : List Char) :
    (normalize_n0 raw_text).normalized_text.filter isDigitC
      = raw_text.filter isDigitC := by
  unfold normalize_n0
  split
  · rename_i h
    rw [List.isEmpty_iff.mp h]
  · simp only
    rw [filter_rstrip, filter_normalize_units, filter_insert_spaces]

/-- **C1.** For every input string, `normalize_n0` returns a result (it is a
total function), and the multiset of digit characters of its
`normalized_text` equals the multiset of digit characters of `raw_text` —
for all inputs, including the empty string and mixed Hebrew/English/digit
text.  (In fact the digit characters are preserved in order, which implies
the multiset equality.) -/
theorem C1_digit_multiset_preserved (raw_text : List Char) :
    (((normalize_n0 raw_text).normalized_text.filter isDigitC : List Char) : Multiset Char)
      = ((raw_text.filter isDigitC : List Char) : Multiset Char) := by
  rw [normalize_n0_digit_list]

/-! ## Claims C2/C3: structural lemmas about the tokenizer -/

/-- Negation of the whitespace class (the "non-whitespace characters" of the
token-coverage property). -/
def notWs (c : Char) : Bool := !(isPySpace c)

theorem drop_takeWhile_length (p : Char → Bool) (l : List Char) :
    l.drop (l.takeWhile p).length = l.dropWhile p := by
  induction l with
  | nil => rfl
  | cons a t ih =>
    by_cases h : p a
    · simp [List.takeWhile_cons, List.dropWhile_cons, h, ih]
    · simp [List.takeWhile_cons, List.dropWhile_cons, h]

theorem takeWhile_append_drop_self (p : Char → Bool) (l : List Char) :
    l.takeWhile p ++ l.drop (l.takeWhile p).length = l := by
  rw [drop_takeWhile_length, List.takeWhile_append_dropWhile]

theorem hebWordExtF_prefix : ∀ (fuel : Nat) (l : List Char), hebWordExtF fuel l <+: l
  | 0, l => by rw [hebWordExtF]; exact List.nil_prefix
  | fuel + 1, [] => List.nil_prefix
  | fuel + 1, c :: rest => by
    rw [hebWordExtF]
    dsimp only
    split
    · split
      · exact List.nil_prefix
      · obtain ⟨t, ht⟩ := hebWordExtF_prefix fuel (rest.drop (rest.takeWhile isHebBlock).length)
        refine ⟨t, ?_⟩
        simp only [List.cons_append, List.append_assoc, ht,
          takeWhile_append_drop_self]
    · exact List.nil_prefix

theorem hebWordExt_prefix (l : List Char) : hebWordExt l <+: l :=
  hebWordExtF_prefix l.length l

theorem engWordExtF_prefix : ∀ (fuel : Nat) (l : List Char), engWordExtF fuel l <+: l
  | 0, l => by rw [engWordExtF]; exact List.nil_prefix
  | fuel + 1, [] => List.nil_prefix
  | fuel + 1, c :: rest => by
    rw [engWordExtF]
    dsimp only
    split
    · split
      · exact List.nil_prefix
      · obtain ⟨t, ht⟩ := engWordExtF_prefix fuel (rest.drop (rest.takeWhile isLatin).length)
        refine ⟨t, ?_⟩
        simp only [List.cons_append, List.append_assoc, ht,
          takeWhile_append_drop_self]
    · exact List.nil_prefix

theorem engWordExt_prefix (l : List Char) : engWordExt l <+: l :=
  engWordExtF_prefix l.length l

theorem matchHebWord_prefix {l m : List Char} (h : matchHebWord l = some m) :
    m <+: l ∧ m ≠ [] := by
  unfold matchHebWord at h
  dsimp only at h
  split at h
  · cases h
  · rename_i hr
    injection h with h
    subst h
    constructor
    · obtain ⟨t, ht⟩ := hebWordExt_prefix (l.drop (l.takeWhile isHebBlock).length)
      exact ⟨t, by simp only [List.append_assoc, ht, takeWhile_append_drop_self]⟩
    · simp only [ne_eq, List.append_eq_nil, not_and]
      intro hcon
      rw [hcon] at hr
      simp at hr

theorem matchEngWord_prefix {l m : List Char} (h : matchEngWord l = some m) :
    m <+: l ∧ m ≠ [] := by
  unfold matchEngWord at h
  dsimp only at h
  split at h
  · cases h
  · rename_i hr
    injection h with h
    subst h
    constructor
    · obtain ⟨t, ht⟩ := engWordExt_prefix (l.drop (l.takeWhile isLatin).length)
      exact ⟨t, by simp only [List.append_assoc, ht, takeWhile_append_drop_self]⟩
    · simp only [ne_eq, List.append_eq_nil, not_and]
      intro hcon
      rw [hcon] at hr
      simp at hr

theorem matchNumber_prefix {l m : List Char} (h : matchNumber l = some m) :
    m <+: l ∧ m ≠ [] := by
  unfold matchNumber at h
  dsimp only at h
  split at h
  · cases h
  · rename_i hr
    have hne : l.takeWhile isDigitC ≠ [] := by
      intro hcon; rw [hcon] at hr; simp at hr
    split at h
    · rename_i l2 heq
      split at h
      · injection h with h
        subst h
        exact ⟨List.takeWhile_prefix _, hne⟩
      · injection h with h
        subst h
        constructor
        · have h1 : l.takeWhile isDigitC ++ '.' :: l2 = l := by
            conv_rhs => rw [← takeWhile_append_drop_self isDigitC l]
            rw [heq]
          obtain ⟨t, ht⟩ := List.takeWhile_prefix (l := l2) (p := isDigitC)
          refine ⟨t, ?_⟩
          conv_rhs => rw [← h1]
          rw [List.append_assoc, List.cons_append, ht]
        · simp [hne]
    · injection h with h
      subst h
      exact ⟨List.takeWhile_prefix _, hne⟩

theorem matchUnit_prefix {l m : List Char} (h : matchUnit l = some m) :
    m <+: l ∧ m ≠ [] := by
  unfold matchUnit at h
  split_ifs at h with h1 h2 h3 h4 <;> injection h with h <;> subst h
  · exact ⟨List.isPrefixOf_iff_prefix.mp h1, by simp⟩
  · exact ⟨List.isPrefixOf_iff_prefix.mp h2, by simp⟩
  · exact ⟨List.isPrefixOf_iff_prefix.mp h3, by simp⟩
  · exact ⟨List.isPrefixOf_iff_prefix.mp h4, by simp⟩

theorem matchPunct_prefix {l m : List Char} (h : matchPunct l = some m) :
    m <+: l ∧ m ≠ [] := by
  unfold matchPunct at h
  split at h
  · cases h
  · rename_i c rest
    split_ifs at h
    injection h with h
    subst h
    exact ⟨⟨rest, rfl⟩, by simp⟩

theorem scanToken_props (pairs : List Pair) (pos idx : Nat) (suffix : List Char) :
    (scanToken pairs pos idx suffix).span.1 = pos
    ∧ (scanToken pairs pos idx suffix).text
        = suffix.take ((scanToken pairs pos idx suffix).span.2 - pos)
    ∧ pos < (scanToken pairs pos idx suffix).span.2
    ∧ (scanToken pairs pos idx suffix).kind ≠ TokenKind.pair := by
  unfold scanToken
  split
  · rename_i m hm
    obtain ⟨hp, hne⟩ := matchHebWord_prefix hm
    refine ⟨rfl, ?_, ?_, by simp⟩
    · have he : pos + m.length - pos = m.length := by omega
      simpa [he] using List.prefix_iff_eq_take.mp hp
    · have := List.length_pos.mpr hne
      simp only
      omega
  · split
    · rename_i m hm
      obtain ⟨hp, hne⟩ := matchEngWord_prefix hm
      refine ⟨rfl, ?_, ?_, by simp⟩
      · have he : pos + m.length - pos = m.length := by omega
        simpa [he] using List.prefix_iff_eq_take.mp hp
      · have := List.length_pos.mpr hne
        simp only
        omega
    · split
      · rename_i t hnum
        split at hnum
        · rename_i m hm
          split_ifs at hnum
          obtain ⟨hp, hne⟩ := matchNumber_prefix hm
          injection hnum with hnum
          subst hnum
          refine ⟨rfl, ?_, ?_, by simp⟩
          · have he : pos + m.length - pos = m.length := by omega
            simpa [he] using List.prefix_iff_eq_take.mp hp
          · have := List.length_pos.mpr hne
            simp only
            omega
        · cases hnum
      · split
        · rename_i m hm
          obtain ⟨hp, hne⟩ := matchUnit_prefix hm
          refine ⟨rfl, ?_, ?_, by simp⟩
          · have he : pos + m.length - pos = m.length := by omega
            simpa [he] using List.prefix_iff_eq_take.mp hp
          · have := List.length_pos.mpr hne
            simp only
            omega
        · split
          · rename_i m hm
            obtain ⟨hp, hne⟩ := matchPunct_prefix hm
            refine ⟨rfl, ?_, ?_, by simp⟩
            · have he : pos + m.length - pos = m.length := by omega
              simpa [he] using List.prefix_iff_eq_take.mp hp
            · have := List.length_pos.mpr hne
              simp only
              omega
          · refine ⟨rfl, ?_, by simp only; omega, by simp⟩
            have he : pos + 1 - pos = 1 := by omega
            simp [he]

theorem tokenize_loop_invariants (text : List Char) (pairs : List Pair)
    (hwf : ∀ p ∈ pairs, p.span.1 < p.span.2) :
    ∀ fuel pos idx,
      (∀ t ∈ tokenize_loop text pairs fuel pos idx,
          pos ≤ t.span.1 ∧ t.span.1 < t.span.2
          ∧ (text.drop t.span.1).take (t.span.2 - t.span.1) = t.text
          ∧ (t.kind = TokenKind.pair →
              ∃ p ∈ pairs, t.span = p.span ∧ t.meta = some ⟨p.A, p.B, p.sep⟩))
      ∧ List.Pairwise (fun a b => a.span.2 ≤ b.span.1)
          (tokenize_loop text pairs fuel pos idx) := by
  intro fuel
  induction fuel with
  | zero => intro pos idx; simp [tokenize_loop]
  | succ fuel ih =>
    intro pos idx
    rw [tokenize_loop]
    split_ifs with hpos
    · split
      · rename_i p hfind
        have hmem := List.mem_of_find?_eq_some hfind
        have hstart : p.span.1 = pos := by
          have := List.find?_some hfind
          simpa using this
        have hlt := hwf p hmem
        obtain ⟨ih1, ih2⟩ := ih p.span.2 (idx + 1)
        constructor
        · intro t ht
          rcases List.mem_cons.mp ht with rfl | ht'
          · exact ⟨by simp only; omega, by simp only; omega, rfl,
              fun _ => ⟨p, hmem, rfl, rfl⟩⟩
          · obtain ⟨h1, h2, h3, h4⟩ := ih1 t ht'
            exact ⟨by omega, h2, h3, h4⟩
        · exact List.pairwise_cons.mpr ⟨fun t ht => (ih1 t ht).1, ih2⟩
      · dsimp only
        split_ifs with hws
        · obtain ⟨hp1, hp2, hp3, hp4⟩ := scanToken_props pairs pos idx (text.drop pos)
          obtain ⟨ih1, ih2⟩ :=
            ih (scanToken pairs pos idx (text.drop pos)).span.2 (idx + 1)
          constructor
          · intro t ht
            rcases List.mem_cons.mp ht with rfl | ht'
            · refine ⟨by omega, by omega, ?_, fun hk => absurd hk hp4⟩
              rw [hp1, hp2]
            · obtain ⟨h1, h2, h3, h4⟩ := ih1 t ht'
              exact ⟨by omega, h2, h3, h4⟩
          · exact List.pairwise_cons.mpr ⟨fun t ht => (ih1 t ht).1, ih2⟩
        · obtain ⟨ih1, ih2⟩ :=
            ih (pos + ((text.drop pos).takeWhile isPySpace).length) idx
          refine ⟨fun t ht => ?_, ih2⟩
          obtain ⟨h1, h2, h3, h4⟩ := ih1 t ht
          exact ⟨by omega, h2, h3, h4⟩
    · simp

theorem drop_split_at (text : List Char) (pos e : Nat) (h : pos ≤ e) :
    text.drop pos = (text.drop pos).take (e - pos) ++ text.drop e := by
  conv_lhs => rw [← List.take_append_drop (e - pos) (text.drop pos)]
  rw [List.drop_drop]
  congr 2
  omega

theorem filter_notWs_of_space {l : List Char} (h : ∀ c ∈ l, isPySpace c = true) :
    l.filter notWs = [] := by
  rw [List.filter_eq_nil_iff]
  intro c hc
  simp [notWs, h c hc]

theorem tokenize_loop_coverage (text : List Char) (pairs : List Pair)
    (hwf : ∀ p ∈ pairs, p.span.1 < p.span.2) :
    ∀ fuel pos idx, text.length - pos < fuel →
      ((tokenize_loop text pairs fuel pos idx).map Token.text).flatten.filter notWs
        = (text.drop pos).filter notWs := by
  intro fuel
  induction fuel with
  | zero => intro pos idx h; omega
  | succ fuel ih =>
    intro pos idx hfuel
    rw [tokenize_loop]
    split_ifs with hpos
    · split
      · rename_i p hfind
        have hstart : p.span.1 = pos := by
          have := List.find?_some hfind
          simpa using this
        have hlt := hwf p (List.mem_of_find?_eq_some hfind)
        rw [List.map_cons, List.flatten_cons, List.filter_append,
          ih p.span.2 (idx + 1) (by omega), ← List.filter_append]
        congr 1
        rw [hstart]
        exact (drop_split_at text pos p.span.2 (by omega)).symm
      · dsimp only
        split_ifs with hws
        · obtain ⟨hp1, hp2, hp3, hp4⟩ := scanToken_props pairs pos idx (text.drop pos)
          rw [List.map_cons, List.flatten_cons, List.filter_append,
            ih (scanToken pairs pos idx (text.drop pos)).span.2 (idx + 1) (by omega),
            ← List.filter_append]
          congr 1
          rw [hp2]
          exact (drop_split_at text pos _ (by omega)).symm
        · have hwl : 1 ≤ ((text.drop pos).takeWhile isPySpace).length := by
            rcases hcon : (text.drop pos).takeWhile isPySpace with _ | ⟨a, b⟩
            · rw [hcon] at hws; simp at hws
            · simp
          rw [ih (pos + ((text.drop pos).takeWhile isPySpace).length) idx (by omega)]
          have hsplit : text.drop pos
              = (text.drop pos).takeWhile isPySpace
                ++ text.drop (pos + ((text.drop pos).takeWhile isPySpace).length) := by
            conv_lhs => rw [← takeWhile_append_drop_self isPySpace (text.drop pos)]
            rw [List.drop_drop]
          conv_rhs => rw [hsplit]
          rw [List.filter_append,
            filter_notWs_of_space (fun c hc => List.mem_takeWhile_imp hc)]
          simp
    · have hdrop : text.drop pos = [] := List.drop_eq_nil_of_le (by omega)
      simp [hdrop]

/-- **C2.** For every `NormalizationResult` whose recorded pair spans are
non-degenerate (`start < end`, part of the §3 data-model invariant that a
pair's span delimits its non-empty text), the token list of `tokenize_t1`
satisfies: the substring of the normalized text delimited by each token's
span equals that token's text; token spans never overlap and are ordered left
to right; and concatenating all token texts in index order reconstructs
exactly the non-whitespace characters of the normalized text (coverage
modulo whitespace: a pair token may carry interior whitespace of its span,
so both sides are compared after discarding whitespace). -/
theorem C2_tokenize_invariants (n0 : NormalizationResult)
    (hwf : ∀ p ∈ n0.pairs, p.span.1 < p.span.2) :
    (∀ t ∈ tokenize_t1 n0,
        (n0.normalized_text.drop t.span.1).take (t.span.2 - t.span.1) = t.text
        ∧ t.span.1 < t.span.2)
    ∧ List.Pairwise (fun a b => a.span.2 ≤ b.span.1) (tokenize_t1 n0)
    ∧ ((tokenize_t1 n0).map Token.text).flatten.filter notWs
        = n0.normalized_text.filter notWs := by
  unfold tokenize_t1
  dsimp only
  split_ifs with hempty
  · have h0 : n0.normalized_text = [] := List.isEmpty_iff.mp hempty
    simp [h0]
  · have hwf' : ∀ p ∈ n0.pairs.insertionSort (fun p q => p.span.1 ≤ q.span.1),
        p.span.1 < p.span.2 := by
      intro p hp
      exact hwf p ((List.perm_insertionSort _ _).mem_iff.mp hp)
    obtain ⟨hinv, hpair⟩ := tokenize_loop_invariants n0.normalized_text _ hwf'
      (n0.normalized_text.length + 1) 0 0
    refine ⟨fun t ht => ⟨(hinv t ht).2.2.1, (hinv t ht).2.1⟩, hpair, ?_⟩
    have hcov := tokenize_loop_coverage n0.normalized_text _ hwf'
      (n0.normalized_text.length + 1) 0 0 (by omega)
    simpa using hcov

def c2Example : NormalizationResult := normalize_n0 "שתל 3 18/0 mm".toList

/-- Witness for C2: the hypothesis holds and the theorem applies at a
concrete normalizer output. -/
theorem C2_tokenize_invariants_witness :
    (∀ p ∈ c2Example.pairs, p.span.1 < p.span.2)
    ∧ ((∀ t ∈ tokenize_t1 c2Example,
          (c2Example.normalized_text.drop t.span.1).take (t.span.2 - t.span.1) = t.text
          ∧ t.span.1 < t.span.2)
        ∧ List.Pairwise (fun a b => a.span.2 ≤ b.span.1) (tokenize_t1 c2Example)
        ∧ ((tokenize_t1 c2Example).map Token.text).flatten.filter notWs
            = c2Example.normalized_text.filter notWs) :=
  ⟨by decide, C2_tokenize_invariants c2Example (by decide)⟩

/-- The input on which claim C3's universal statement fails: the same
`A/sep/B` text occurs twice in the line. -/
def c3Input : List Char := "18/0 18/0".toList

/-- **C3, counterexample.**  The claim states that *every occurrence* of a
pair construct in the line — "including when the same A/sep/B text occurs
more than once" — is tokenized as exactly one token of kind `pair` covering
the occurrence's span.  On `"18/0 18/0"` the pair construct occurs at spans
`(0,4)` and `(5,9)` of the normalized text (computed here by the same
pair-detection regex), but the tokenizer emits exactly one pair token, at
`(0,4)`: `_update_pair_spans` re-locates every detected pair to the *first*
occurrence of its `A\s*sep\s*B` pattern, so the second occurrence is split
into number tokens (`18`, `0`) and a fallback token (`/`). -/
theorem C3_counterexample :
    ¬ (∀ occ ∈ find_pairs (normalize_n0 c3Input).normalized_text,
        ((tokenize_t1 (normalize_n0 c3Input)).filter
          (fun t => t.kind == TokenKind.pair && decide (t.span = occ.span))).length = 1) := by
  decide

/-- **C3, amended.**  For every `NormalizationResult` with non-degenerate
pair spans: every token of kind `pair` corresponds to a recorded pair (same
span and `A`/`B`/`sep` metadata) and carries exactly the text its span
delimits — a pair is never split once its recorded span is reached by the
scan — and distinct pair tokens cover disjoint, non-degenerate spans (so
each recorded pair span yields at most one pair token).  An occurrence of a
pair construct is tokenized atomically only when it is the occurrence the
recorded (first-match re-located) span points at; later duplicate
occurrences are split into their constituent number tokens. -/
theorem C3_pair_atomicity_amended (n0 : NormalizationResult)
    (hwf : ∀ p ∈ n0.pairs, p.span.1 < p.span.2) :
    (∀ t ∈ tokenize_t1 n0, t.kind = TokenKind.pair →
        ∃ p ∈ n0.pairs, t.span = p.span
          ∧ t.text = (n0.normalized_text.drop p.span.1).take (p.span.2 - p.span.1)
          ∧ t.meta = some ⟨p.A, p.B, p.sep⟩)
    ∧ List.Pairwise
        (fun a b => a.kind = TokenKind.pair → b.kind = TokenKind.pair →
          a.span.2 ≤ b.span.1 ∧ a.span ≠ b.span)
        (tokenize_t1 n0) := by
  obtain ⟨h1, h2, _⟩ := C2_tokenize_invariants n0 hwf
  constructor
  · intro t ht hk
    -- replay the loop invariant to recover the pair origin
    revert ht
    unfold tokenize_t1
    dsimp only
    split_ifs with hempty
    · intro ht; cases ht
    · intro ht
      have hwf' : ∀ p ∈ n0.pairs.insertionSort (fun p q => p.span.1 ≤ q.span.1),
          p.span.1 < p.span.2 := fun p hp =>
        hwf p ((List.perm_insertionSort _ _).mem_iff.mp hp)
      obtain ⟨hinv, _⟩ := tokenize_loop_invariants n0.normalized_text _ hwf'
        (n0.normalized_text.length + 1) 0 0
      obtain ⟨_, _, htext, hp⟩ := hinv t ht
      obtain ⟨p, hpmem, hspan, hmeta⟩ := hp hk
      refine ⟨p, (List.perm_insertionSort _ _).mem_iff.mp hpmem, hspan, ?_, hmeta⟩
      rw [← htext, hspan]
  · refine h2.imp_of_mem ?_
    intro a b ha hb hab hka hkb
    have hlt := (h1 a ha).2
    refine ⟨hab, ?_⟩
    intro hcon
    have hc1 : a.span.1 = b.span.1 := by rw [hcon]
    have hc2 : a.span.2 = b.span.2 := by rw [hcon]
    omega

/-- Witness for the amended C3 theorem at a concrete normalizer output. -/
theorem C3_pair_atomicity_amended_witness :
    (∀ p ∈ c2Example.pairs, p.span.1 < p.span.2)
    ∧ ((∀ t ∈ tokenize_t1 c2Example, t.kind = TokenKind.pair →
          ∃ p ∈ c2Example.pairs, t.span = p.span
            ∧ t.text = (c2Example.normalized_text.drop p.span.1).take (p.span.2 - p.span.1)
            ∧ t.meta = some ⟨p.A, p.B, p.sep⟩)
        ∧ List.Pairwise
            (fun a b => a.kind = TokenKind.pair → b.kind = TokenKind.pair →
              a.span.2 ≤ b.span.1 ∧ a.span ≠ b.span)
            (tokenize_t1 c2Example)) :=
  ⟨by decide, C3_pair_atomicity_amended c2Example (by decide)⟩

/-! ## Safety validator (`src/block1/src/pipeline/validators.py`)

`LlmAugmentResult.ops` operations carry Python `int` fields, embedded as
`Int` (they come from LLM output and may be negative).  Error messages are
embedded as character lists.  The tooth-group dictionary (loaded from a JSON
file in Python) is passed in as an explicit value. -/

instance : Inhabited Token :=
  ⟨{ idx := 0, text := [], kind := .word, span := (0, 0), script := none, meta := none }⟩

structure TokenOperation where
  op : List Char
  after_token_idx : Option Int
  range : Option (List Int)
  deriving Repr, DecidableEq

structure ToothGroup where
  label_he : List Char
  label_en : List Char
  FDI : List (List Char)
  deriving Repr, DecidableEq

structure LlmAugmentResult where
  ops : List TokenOperation
  canonical_terms : List (List Char)
  tooth_groups : List ToothGroup
  intent_hints : List (List Char)
  ambiguous : Bool
  deriving Repr, DecidableEq

structure TokensResult where
  text : List Char
  tokens : List Token
  deriving Repr, DecidableEq

/-- One entry of the `tooth_groups.json` dictionary: a group record that may
or may not carry an `"FDI"` key. -/
structure ToothGroupDictEntry where
  FDI : Option (List (List Char))
  deriving Repr, DecidableEq

def opInsert : List Char := "insert_space".toList

def opMerge : List Char := "merge_tokens".toList

/-- Python `range(a, b)` over integers. -/
def intRange (a b : Int) : List Int :=
  List.map (fun k : Nat => a + (k : Int)) (List.range (b - a).toNat)

def numberPairErrMsg (idx : Int) : List Char :=
  "Operation would modify number/pair token at index ".toList ++ (toString idx).toList

def pairInsertErrMsg (idx : Int) : List Char :=
  "Cannot insert space after pair token at index ".toList ++ (toString idx).toList

def pairMergeErrMsg (idx : Int) : List Char :=
  "Cannot merge pair token at index ".toList ++ (toString idx).toList

/-- Python list index resolution for `xs[i]` (negative counts from the end);
`none` means `IndexError`. -/
def pyListIdx (n : Nat) (i : Int) : Option Nat :=
  if 0 ≤ i ∧ i < (n : Int) then some i.toNat
  else if -(n : Int) ≤ i ∧ i < 0 then some (((n : Int) + i).toNat)
  else none

/-- A loop that appends per-item error lists and may raise: `none` is a
Python exception aborting the whole call (whatever was collected before the
raise is discarded with it), otherwise the per-item error lists are
concatenated in iteration order. -/
def optAccum {β : Type} (f : β → Option (List (List Char))) :
    List β → Option (List (List Char))
  | [] => some []
  | x :: xs =>
    match f x with
    | none => none
    | some e =>
      match optAccum f xs with
      | none => none
      | some es => some (e ++ es)

/-- One index of the `range(op.range[0], op.range[1] + 1)` loop of
`_validate_numbers_invariant`.  The guard is only `idx < len(t1.tokens)`,
so a negative `idx` still reaches `t1.tokens[idx]`, which resolves from the
end for `-len ≤ idx < 0` and raises `IndexError` (`none`) below that. -/
def numbersIdxErrs (t1 : TokensResult) (idx : Int) : Option (List (List Char)) :=
  if idx < (t1.tokens.length : Int) then
    match pyListIdx t1.tokens.length idx with
    | none => none
    | some k =>
      if (t1.tokens.getD k default).kind = TokenKind.number
          ∨ (t1.tokens.getD k default).kind = TokenKind.pair then
        some [numberPairErrMsg idx]
      else some []
  else some []

/-- One operation of `_validate_numbers_invariant`: a truthy one-element
`range` raises `IndexError` at `op.range[1]` (`none`); a falsy `range`
(`None` or `[]`) is skipped by the `and op.range` guard. -/
def numbersOpErrs (t1 : TokensResult) (op : TokenOperation) :
    Option (List (List Char)) :=
  if op.op = opMerge then
    match op.range with
    | some (r0 :: r1 :: _) => optAccum (numbersIdxErrs t1) (intRange r0 (r1 + 1))
    | some [_] => none
    | _ => some []
  else some []

/-- `SafetyValidator._validate_numbers_invariant`.  `none` models the
`IndexError` paths (one-element truthy range, index below `-len(tokens)`). -/
def validate_numbers_invariant (llm : LlmAugmentResult) (t1 : TokensResult) :
    Option (List (List Char)) :=
  optAccum (numbersOpErrs t1) llm.ops

/-- The `pair_indices` set of `SafetyValidator._validate_pairs_invariant`:
the `idx` fields of the pair-kind tokens. -/
def pair_idx_list (t1 : TokensResult) : List Nat :=
  (t1.tokens.filter (fun t => t.kind == TokenKind.pair)).map Token.idx

/-- One operation of `_validate_pairs_invariant`: the `insert_space` check
never indexes, but the `merge_tokens` check reads `op.range[1]`, raising
`IndexError` (`none`) on a truthy one-element range; the inner loop only
tests membership in `pair_indices`, so no other exception is possible. -/
def pairsOpErrs (t1 : TokensResult) (op : TokenOperation) :
    Option (List (List Char)) :=
  let ins :=
    if op.op = opInsert then
      match op.after_token_idx with
      | some i =>
        if (pair_idx_list t1).any (fun j => (j : Int) = i) then [pairInsertErrMsg i]
        else []
      | none => []
    else []
  if op.op = opMerge then
    match op.range with
    | some (r0 :: r1 :: _) =>
      some (ins ++ (intRange r0 (r1 + 1)).flatMap fun idx =>
        if (pair_idx_list t1).any (fun j => (j : Int) = idx) then [pairMergeErrMsg idx]
        else [])
    | some [_] => none
    | _ => some ins
  else some ins

/-- `SafetyValidator._validate_pairs_invariant`; `none` models the
`IndexError` on a truthy one-element merge range. -/
def validate_pairs_invariant (llm : LlmAugmentResult) (t1 : TokensResult) :
    Option (List (List Char)) :=
  optAccum (pairsOpErrs t1) llm.ops

/-- `SafetyValidator._validate_token_operations` (including the trailing
lightweight length-delta simulation). -/
def validate_token_operations (llm : LlmAugmentResult) (t1 : TokensResult) :
    List (List Char) :=
  let max_idx : Int := (t1.tokens.length : Int) - 1
  (llm.ops.flatMap fun op =>
    if op.op = opInsert then
      match op.after_token_idx with
      | none => ["insert_space operation missing after_token_idx".toList]
      | some i =>
        if i < 0 ∨ i > max_idx then
          ["after_token_idx ".toList ++ (toString i).toList
            ++ " out of range [0, ".toList ++ (toString max_idx).toList ++ "]".toList]
        else []
    else if op.op = opMerge then
      match op.range with
      | some [r0, r1] =>
        if r0 < 0 ∨ r1 > max_idx then
          ["merge range [".toList ++ (toString r0).toList ++ ", ".toList
            ++ (toString r1).toList ++ "] out of bounds [0,".toList
            ++ (toString max_idx).toList ++ "]".toList]
        else if r0 > r1 then
          ["Invalid merge range [".toList ++ (toString r0).toList ++ ", ".toList
            ++ (toString r1).toList ++ "]".toList]
        else []
      | _ => ["merge_tokens requires range [start,end]".toList]
    else [])
  ++
  (let delta : Int := llm.ops.foldl
      (fun d op => if op.op = opInsert then d + 1
        else if op.op = opMerge then d - 1 else d) 0
   if (t1.text.length : Int) + delta ≤ 0 then ["operations would empty text".toList]
   else [])

/-- `SafetyValidator._validate_tooth_groups`. -/
def validate_tooth_groups (toothDict : List ToothGroupDictEntry)
    (llm : LlmAugmentResult) : List (List Char) :=
  if toothDict.isEmpty then []
  else
    let valid_fdi := toothDict.flatMap (fun g => g.FDI.getD [])
    llm.tooth_groups.flatMap fun group =>
      group.FDI.flatMap fun fdi =>
        if fdi ∈ valid_fdi then []
        else ["Invalid FDI number ".toList ++ [Char.ofNat 39] ++ fdi ++ [Char.ofNat 39]
          ++ " not in tooth groups dictionary".toList]

/-- `SafetyValidator._validate_character_coverage` (its only effective check
is the unknown-operation-type scan). -/
def validate_character_coverage (llm : LlmAugmentResult) : List (List Char) :=
  llm.ops.flatMap fun op =>
    if op.op = opInsert ∨ op.op = opMerge then []
    else ["Unknown operation type: ".toList ++ op.op]

/-- `SafetyValidator.validate_llm_output`: the five checks run in order and
their error lists are concatenated; `valid` is true iff the combined list is
empty.  `none` models an uncaught `IndexError` escaping from the numbers or
pairs check, in which case the function never returns a `(valid, errors)`
pair.  (The `n0` argument is threaded as in the source; the numbers check
reads but never uses `n0.numbers`; the remaining three checks cannot
raise.) -/
def validate_llm_output (toothDict : List ToothGroupDictEntry)
    (llm : LlmAugmentResult) (n0 : NormalizationResult) (t1 : TokensResult) :
    Option (Bool × List (List Char)) :=
  match validate_numbers_invariant llm t1 with
  | none => none
  | some number_errors =>
    match validate_pairs_invariant llm t1 with
    | none => none
    | some pair_errors =>
      let errors := number_errors ++ pair_errors
        ++ validate_token_operations llm t1
        ++ validate_tooth_groups toothDict llm
        ++ validate_character_coverage llm
      some (errors.isEmpty, errors)

/-! ## Claim C4: the validator rejects pair/number edits -/

theorem mem_intRange {a b x : Int} (h1 : a ≤ x) (h2 : x < b) : x ∈ intRange a b := by
  have hk : (x - a).toNat ∈ List.range (b - a).toNat := List.mem_range.mpr (by omega)
  have hmem := List.mem_map_of_mem (fun k : Nat => a + (k : Int)) hk
  have hval : a + ((x - a).toNat : Int) = x := by omega
  unfold intRange
  rw [← hval]
  exact hmem

/-- `r` is a merge range `[r0, r1, ...]` whose inclusive span contains `i`. -/
def rangeCovers (r : Option (List Int)) (i : Nat) : Bool :=
  match r with
  | some (r0 :: r1 :: _) => decide (r0 ≤ (i : Int) ∧ (i : Int) ≤ r1)
  | _ => false

theorem rangeCovers_elim {r : Option (List Int)} {i : Nat}
    (h : rangeCovers r i = true) :
    ∃ r0 r1 rest, r = some (r0 :: r1 :: rest) ∧ r0 ≤ (i : Int) ∧ (i : Int) ≤ r1 := by
  unfold rangeCovers at h
  split at h
  · rename_i r0 r1 rest
    rw [decide_eq_true_eq] at h
    exact ⟨r0, r1, rest, rfl, h.1, h.2⟩
  · cases h

/-- The claim's premise: position `i` is the index of a `pair`-kind token
named by an `insert_space` operation, or the index of a `number`/`pair`-kind
token included in a `merge_tokens` range. -/
def OffendingIdx (llm : LlmAugmentResult) (t1 : TokensResult) (i : Nat) : Prop :=
  (∃ op ∈ llm.ops, op.op = opInsert ∧ op.after_token_idx = some (i : Int)
      ∧ i < t1.tokens.length ∧ (t1.tokens.getD i default).kind = TokenKind.pair)
  ∨ (∃ op ∈ llm.ops, op.op = opMerge ∧ rangeCovers op.range i = true
      ∧ i < t1.tokens.length
      ∧ ((t1.tokens.getD i default).kind = TokenKind.number
          ∨ (t1.tokens.getD i default).kind = TokenKind.pair))

instance (llm : LlmAugmentResult) (t1 : TokensResult) (i : Nat) :
    Decidable (OffendingIdx llm t1 i) := by
  unfold OffendingIdx
  exact inferInstance

theorem pair_idx_list_mem (t1 : TokensResult) (i : Nat)
    (hidx : ∀ j, j < t1.tokens.length → (t1.tokens.getD j default).idx = j)
    (hi : i < t1.tokens.length)
    (hkind : (t1.tokens.getD i default).kind = TokenKind.pair) :
    i ∈ pair_idx_list t1 := by
  have helem : t1.tokens.getD i default = t1.tokens[i] := by
    rw [List.getD_eq_getElem?_getD, List.getElem?_eq_getElem hi, Option.getD_some]
  unfold pair_idx_list
  refine List.mem_map.mpr ⟨t1.tokens.getD i default, ?_, hidx i hi⟩
  refine List.mem_filter.mpr ⟨?_, ?_⟩
  · rw [helem]
    exact List.getElem_mem hi
  · show ((t1.tokens.getD i default).kind == TokenKind.pair) = true
    rw [hkind]
    rfl

theorem optAccum_mem {β : Type} (f : β → Option (List (List Char))) :
    ∀ (xs : List β) (es : List (List Char)), optAccum f xs = some es →
      ∀ x ∈ xs, ∃ e, f x = some e ∧ ∀ m ∈ e, m ∈ es
  | [], _, _ => by intro x hx; cases hx
  | y :: ys, es, h => by
    intro x hx
    rw [optAccum] at h
    cases hfy : f y with
    | none =>
      rw [hfy] at h
      dsimp only at h
      cases h
    | some ey =>
      rw [hfy] at h
      dsimp only at h
      cases hacc : optAccum f ys with
      | none =>
        rw [hacc] at h
        dsimp only at h
        cases h
      | some eys =>
        rw [hacc] at h
        dsimp only at h
        have hes := Option.some.inj h
        subst hes
        rcases List.mem_cons.mp hx with rfl | hx2
        · exact ⟨ey, hfy, fun m hm => List.mem_append_left _ hm⟩
        · obtain ⟨e, hfe, hsub⟩ := optAccum_mem f ys eys hacc x hx2
          exact ⟨e, hfe, fun m hm => List.mem_append_right _ (hsub m hm)⟩

/-- **C4 (amended).**  For every tooth-group dictionary, operation list,
normalization result and token list whose `idx` fields are positional (the
§3 data-model invariant "unique, sequential"): if some `insert_space`
operation's `after_token_idx` names a token of kind `pair`, or some
`merge_tokens` operation's range includes the index of a token of kind
`number` or `pair`, then *whenever `validate_llm_output` returns at all*
(no merge range in the list is a truthy single element and no examined index
falls below `-len(tokens)`, which would raise `IndexError` instead), it
returns `valid = false` together with a non-empty error list containing a
message that mentions the offending token's index. -/
theorem C4_validator_rejects_amended (toothDict : List ToothGroupDictEntry)
    (llm : LlmAugmentResult) (n0 : NormalizationResult) (t1 : TokensResult)
    (hidx : ∀ j, j < t1.tokens.length → (t1.tokens.getD j default).idx = j)
    (i : Nat) (hoff : OffendingIdx llm t1 i)
    (r : Bool × List (List Char))
    (hres : validate_llm_output toothDict llm n0 t1 = some r) :
    r.1 = false ∧ r.2 ≠ [] ∧ ∃ msg ∈ r.2, (toString (i : Int)).toList <:+: msg := by
  unfold validate_llm_output at hres
  cases hn : validate_numbers_invariant llm t1 with
  | none =>
    rw [hn] at hres
    cases hres
  | some ne =>
    rw [hn] at hres
    dsimp only at hres
    cases hp : validate_pairs_invariant llm t1 with
    | none =>
      rw [hp] at hres
      cases hres
    | some pe =>
      rw [hp] at hres
      dsimp only at hres
      have hr := Option.some.inj hres
      subst hr
      have hmsg : ∃ msg ∈ ne ++ pe ++ validate_token_operations llm t1
          ++ validate_tooth_groups toothDict llm ++ validate_character_coverage llm,
          (toString (i : Int)).toList <:+: msg := by
        rcases hoff with ⟨op, hop, hkind_op, hafter, hi, hkind⟩ |
          ⟨op, hop, hkind_op, hcov, hi, hkind⟩
        · -- insert_space naming a pair token: the pairs-invariant check fires
          refine ⟨pairInsertErrMsg (i : Int), ?_, (List.suffix_append _ _).isInfix⟩
          obtain ⟨e, hfe, hsub⟩ := optAccum_mem (pairsOpErrs t1) llm.ops pe hp op hop
          have hany : (pair_idx_list t1).any (fun j => decide ((j : Int) = (i : Int)))
              = true :=
            List.any_eq_true.mpr ⟨i, pair_idx_list_mem t1 i hidx hi hkind, by simp⟩
          have hpe : pairsOpErrs t1 op = some [pairInsertErrMsg (i : Int)] := by
            unfold pairsOpErrs
            rw [hkind_op, hafter]
            dsimp only
            rw [if_pos rfl, if_pos hany, if_neg (by decide : ¬ opInsert = opMerge)]
          have he := Option.some.inj (hfe.symm.trans hpe)
          subst he
          have hin : pairInsertErrMsg (i : Int) ∈ pe :=
            hsub _ (List.mem_singleton_self _)
          exact List.mem_append_left _ (List.mem_append_left _
            (List.mem_append_left _ (List.mem_append_right _ hin)))
        · -- merge_tokens covering a number/pair token: the numbers check fires
          obtain ⟨r0, r1, rest, hrange, hle1, hle2⟩ := rangeCovers_elim hcov
          refine ⟨numberPairErrMsg (i : Int), ?_, (List.suffix_append _ _).isInfix⟩
          obtain ⟨e, hfe, hsub⟩ := optAccum_mem (numbersOpErrs t1) llm.ops ne hn op hop
          have hoeq : numbersOpErrs t1 op
              = optAccum (numbersIdxErrs t1) (intRange r0 (r1 + 1)) := by
            unfold numbersOpErrs
            rw [hkind_op, hrange, if_pos rfl]
          rw [hoeq] at hfe
          obtain ⟨e2, hfe2, hsub2⟩ := optAccum_mem (numbersIdxErrs t1) _ e hfe
            ((i : Nat) : Int) (mem_intRange hle1 (by omega))
          have hie : numbersIdxErrs t1 ((i : Nat) : Int)
              = some [numberPairErrMsg (i : Int)] := by
            unfold numbersIdxErrs
            rw [if_pos (by exact_mod_cast hi)]
            have hpl : pyListIdx t1.tokens.length ((i : Nat) : Int) = some i := by
              unfold pyListIdx
              rw [if_pos ⟨Int.natCast_nonneg i, by exact_mod_cast hi⟩,
                Int.toNat_natCast]
            rw [hpl]
            dsimp only
            rw [if_pos hkind]
          have he2 := Option.some.inj (hfe2.symm.trans hie)
          subst he2
          have hin : numberPairErrMsg (i : Int) ∈ ne :=
            hsub _ (hsub2 _ (List.mem_singleton_self _))
          exact List.mem_append_left _ (List.mem_append_left _
            (List.mem_append_left _ (List.mem_append_left _ hin)))
      obtain ⟨msg, hmem, hsubm⟩ := hmsg
      exact ⟨List.isEmpty_eq_false.mpr (List.ne_nil_of_mem hmem),
        List.ne_nil_of_mem hmem, msg, hmem, hsubm⟩

def c4Tokens : TokensResult :=
  { text := "18/0 mm".toList,
    tokens := [{ idx := 0, text := "18/0".toList, kind := .pair, span := (0, 4),
                 script := some .digit, meta := some ⟨"18".toList, "0".toList, '/'⟩ },
               { idx := 1, text := "mm".toList, kind := .word, span := (5, 7),
                 script := some .en, meta := none }] }

def c4Llm : LlmAugmentResult :=
  { ops := [{ op := opInsert, after_token_idx := some 0, range := none }],
    canonical_terms := [], tooth_groups := [], intent_hints := [], ambiguous := false }

def c4N0 : NormalizationResult := normalize_n0 "18/0 mm".toList

/-- Witness for the amended C4: an `insert_space` after the pair token at
index 0 makes the validator return (no exception) with `valid = false` and
an error message naming index 0. -/
theorem C4_validator_rejects_amended_witness :
    ((∀ j, j < c4Tokens.tokens.length → (c4Tokens.tokens.getD j default).idx = j)
      ∧ OffendingIdx c4Llm c4Tokens 0)
    ∧ ∃ r, validate_llm_output [] c4Llm c4N0 c4Tokens = some r
        ∧ r.1 = false ∧ r.2 ≠ []
        ∧ ∃ msg ∈ r.2, (toString ((0 : Nat) : Int)).toList <:+: msg := by
  have hs : (validate_llm_output [] c4Llm c4N0 c4Tokens).isSome = true := by decide
  obtain ⟨r, hr⟩ := Option.isSome_iff_exists.mp hs
  exact ⟨⟨by decide, by decide⟩, r, hr,
    C4_validator_rejects_amended [] c4Llm c4N0 c4Tokens (by decide) 0 (by decide) r hr⟩

def c4CrashLlm : LlmAugmentResult :=
  { ops := [{ op := opInsert, after_token_idx := some 0, range := none },
            { op := opMerge, after_token_idx := none, range := some [-10, 0] }],
    canonical_terms := [], tooth_groups := [], intent_hints := [], ambiguous := false }

/-- **C4 counterexample.**  The original claim quantifies over *every*
operation list.  On `c4CrashLlm` the premise holds (the `insert_space` names
the pair token at index 0, whose `idx` fields are positional), yet the
second operation's merge range `[-10, 0]` makes `_validate_numbers_invariant`
execute `t1.tokens[-10]` over two tokens — the guard is only
`idx < len(t1.tokens)` — so Python raises `IndexError` and `validate` never
returns `valid = false` with an error list. -/
theorem C4_counterexample :
    ((∀ j, j < c4Tokens.tokens.length → (c4Tokens.tokens.getD j default).idx = j)
      ∧ OffendingIdx c4CrashLlm c4Tokens 0)
    ∧ validate_llm_output [] c4CrashLlm c4N0 c4Tokens = none :=
  ⟨⟨by decide, by decide⟩, by decide⟩

/-! ## Operation applier (`src/block1/src/pipeline/ops_apply.py`)

Token spans are mutated by shifting during application and (in Python) are
plain `int`s that may pass through negative values, so the applier works on
an explicit `(text, spans)` state with `Int` spans, seeded from the token
list.  Python string slices clamp out-of-range and negative indices
(`pySliceIdx`); `tokens[i]` indexing resolves negative indices from the end
(`pyListIdx`). -/

/-- Python slice index resolution for `s[:i]` / `s[i:]`. -/
def pySliceIdx (n : Nat) (i : Int) : Nat :=
  if i < 0 then (max ((n : Int) + i) 0).toNat else min i.toNat n

/-- Python slice `s[i:j]`. -/
def pySlice (l : List Char) (i j : Int) : List Char :=
  (l.take (pySliceIdx l.length j)).drop (pySliceIdx l.length i)

/-- One iteration of the `for tidx in range(start_idx, end_idx)` gap-removal
loop of `apply_operations`: remove the gap between tokens `tidx` and
`tidx + 1` when it is non-empty pure whitespace, shifting all following
token spans left by the removed length.  The guard is only
`tidx < len(tokens) - 1`, so `tokens[tidx]` resolves negative indices from
the end and raises `IndexError` (`none`) below `-len(tokens)`; whenever
`tokens[tidx]` resolves, `tokens[tidx + 1]` does too, so the remaining match
arm is unreachable. -/
def applyMergeGap (st : List Char × List (Int × Int)) (tidx : Int) :
    Option (List Char × List (Int × Int)) :=
  let text := st.1
  let spans := st.2
  if tidx < (spans.length : Int) - 1 then
    match pyListIdx spans.length tidx, pyListIdx spans.length (tidx + 1) with
    | some ia, some ib =>
      let a := spans.getD ia (0, 0)
      let b := spans.getD ib (0, 0)
      let gap := pySlice text a.2 b.1
      if gap.all isPySpace ∧ gap ≠ [] then
        let newText := text.take (pySliceIdx text.length a.2)
          ++ text.drop (pySliceIdx text.length b.1)
        let shift : Int := (gap.length : Int)
        let k := pySliceIdx spans.length (tidx + 1)
        some (newText,
          spans.mapIdx (fun j sp => if k ≤ j then (sp.1 - shift, sp.2 - shift) else sp))
      else some (text, spans)
    | _, _ => none
  else some (text, spans)

/-- One merge operation: `start_idx, end_idx = op.range` is a two-element
unpacking in Python — any other length raises (`none`; only truthy ranges
reach here through the `merges` filter) — then the gap removal iterates over
`range(op.range[0], op.range[1])`, aborting on the first `IndexError`. -/
def applyMergeOp (st : List Char × List (Int × Int)) (op : TokenOperation) :
    Option (List Char × List (Int × Int)) :=
  match op.range with
  | some [r0, r1] =>
    (intRange r0 r1).foldl (fun acc tidx => acc.bind fun s => applyMergeGap s tidx)
      (some st)
  | _ => none

/-- One insert operation: insert a single space after the named token's span
end unless a space is already present there, shifting following token spans
right by one.  The guard `tok.span[1] == len(text) or text[tok.span[1]] != ' '`
indexes the text when the first disjunct fails, raising `IndexError`
(`none`) on a span end outside `[-len(text), len(text)]` — e.g. a span left
stale by an earlier merge. -/
def applyInsertOp (st : List Char × List (Int × Int)) (op : TokenOperation) :
    Option (List Char × List (Int × Int)) :=
  match op.after_token_idx with
  | some idxI =>
    let text := st.1
    let spans := st.2
    if 0 ≤ idxI ∧ idxI < (spans.length : Int) then
      let e := (spans.getD idxI.toNat (0, 0)).2
      let doInsert : List Char × List (Int × Int) :=
        (text.take (pySliceIdx text.length e) ++ ' ' :: text.drop (pySliceIdx text.length e),
         spans.mapIdx (fun j sp => if idxI.toNat + 1 ≤ j then (sp.1 + 1, sp.2 + 1) else sp))
      if e = (text.length : Int) then some doInsert
      else
        match pyListIdx text.length e with
        | some ci => if text.getD ci ' ' ≠ ' ' then some doInsert else some (text, spans)
        | none => none
    else some (text, spans)
  | none => some st

/-- `apply_operations`: partition the operations into merges and inserts,
apply all merges first, then all inserts, then re-tokenize the resulting
text from scratch through a synthetic `NormalizationResult` shell carrying
no pairs/numbers metadata.  `none` models an uncaught `ValueError` /
`IndexError` escaping from an operation, in which case no `(new_text,
tokens)` pair is ever returned. -/
def apply_operations (original_text : List Char) (tokens_res : TokensResult)
    (ops : List TokenOperation) : Option (List Char × TokensResult) :=
  if ops.isEmpty then some (original_text, tokens_res)
  else
    let merges := ops.filter (fun o => o.op == opMerge && !(o.range.getD []).isEmpty)
    let inserts := ops.filter (fun o => o.op == opInsert && o.after_token_idx.isSome)
    let spans0 := tokens_res.tokens.map (fun t => ((t.span.1 : Int), (t.span.2 : Int)))
    match merges.foldl (fun acc op => acc.bind fun s => applyMergeOp s op)
        (some (original_text, spans0)) with
    | none => none
    | some st1 =>
      match inserts.foldl (fun acc op => acc.bind fun s => applyInsertOp s op)
          (some st1) with
      | none => none
      | some st2 =>
        let shell : NormalizationResult :=
          { raw_text := st2.1, normalized_text := st2.1, numbers := [], pairs := [],
            units_found := [], notes := [] }
        some (st2.1, { text := st2.1, tokens := tokenize_t1 shell })

/-! ## Claim C5: operation application preserves the non-whitespace text -/

theorem notWs_space : notWs ' ' = false := by decide

theorem filter_remove_ws_slice (text : List Char) (i j : Nat) (hij : i ≤ j)
    (hgap : ∀ c ∈ (text.take j).drop i, isPySpace c = true) :
    (text.take i ++ text.drop j).filter notWs = text.filter notWs := by
  have hsplit : text = (text.take i ++ (text.take j).drop i) ++ text.drop j := by
    have h1 : text.take i ++ (text.take j).drop i = text.take j := by
      have : (text.take j).take i = text.take i := by
        rw [List.take_take, min_eq_left hij]
      conv_lhs => rw [← this]
      exact List.take_append_drop i (text.take j)
    rw [h1, List.take_append_drop]
  conv_rhs => rw [hsplit]
  rw [List.filter_append, List.filter_append, List.filter_append,
    filter_notWs_of_space hgap]
  simp

theorem filter_applyMergeGap (st : List Char × List (Int × Int)) (tidx : Int)
    (st' : List Char × List (Int × Int)) (h : applyMergeGap st tidx = some st') :
    st'.1.filter notWs = st.1.filter notWs := by
  unfold applyMergeGap at h
  dsimp only at h
  split_ifs at h with h1
  · split at h
    · rename_i ia ib hia hib
      split_ifs at h with h2
      · obtain ⟨hall, hne⟩ := h2
        cases h
        dsimp only
        unfold pySlice at hall hne
        generalize hJ : pySliceIdx st.1.length (st.2.getD ib (0, 0)).1 = j at hall hne ⊢
        generalize hI : pySliceIdx st.1.length (st.2.getD ia (0, 0)).2 = i at hall hne ⊢
        have hij : i ≤ j := by
          by_contra hcon
          push_neg at hcon
          apply hne
          apply List.drop_eq_nil_of_le
          have hlen : (st.1.take j).length ≤ j := by
            rw [List.length_take]
            omega
          omega
        exact filter_remove_ws_slice st.1 i j hij
          (fun c hc => List.all_eq_true.mp hall c hc)
      · cases h
        rfl
    · cases h
  · cases h
    rfl

theorem filter_insert_space (text : List Char) (k : Nat) :
    (text.take k ++ ' ' :: text.drop k).filter notWs = text.filter notWs := by
  simp only [List.filter_append, List.filter_cons, notWs_space, Bool.false_eq_true,
    if_false]
  rw [← List.filter_append, List.take_append_drop]

theorem filter_applyInsertOp (st : List Char × List (Int × Int))
    (op : TokenOperation) (st' : List Char × List (Int × Int))
    (h : applyInsertOp st op = some st') :
    st'.1.filter notWs = st.1.filter notWs := by
  unfold applyInsertOp at h
  split at h
  · dsimp only at h
    split_ifs at h with h1 h2
    · cases h
      exact filter_insert_space st.1 _
    · split at h
      · split_ifs at h with h3
        · cases h
          exact filter_insert_space st.1 _
        · cases h
          rfl
      · cases h
    · cases h
      rfl
  · cases h
    rfl

theorem foldl_bind_none {β σ : Type} (f : σ → β → Option σ) :
    ∀ xs : List β, xs.foldl (fun acc x => acc.bind fun s => f s x) none = none
  | [] => rfl
  | x :: xs => by
    rw [List.foldl_cons]
    exact foldl_bind_none f xs

theorem filter_foldl_bind {β : Type}
    (f : List Char × List (Int × Int) → β → Option (List Char × List (Int × Int)))
    (hf : ∀ st x st', f st x = some st' → st'.1.filter notWs = st.1.filter notWs) :
    ∀ (xs : List β) (st st' : List Char × List (Int × Int)),
      xs.foldl (fun acc x => acc.bind fun s => f s x) (some st) = some st' →
      st'.1.filter notWs = st.1.filter notWs
  | [], st, st', h => by
    rw [List.foldl_nil] at h
    cases h
    rfl
  | x :: xs, st, st', h => by
    rw [List.foldl_cons] at h
    simp only [Option.some_bind] at h
    cases hfx : f st x with
    | none =>
      rw [hfx, foldl_bind_none] at h
      cases h
    | some st1 =>
      rw [hfx] at h
      rw [filter_foldl_bind f hf xs st1 st' h, hf st x st1 hfx]

theorem filter_applyMergeOp (st : List Char × List (Int × Int))
    (op : TokenOperation) (st' : List Char × List (Int × Int))
    (h : applyMergeOp st op = some st') :
    st'.1.filter notWs = st.1.filter notWs := by
  unfold applyMergeOp at h
  split at h
  · exact filter_foldl_bind applyMergeGap filter_applyMergeGap _ st st' h
  · cases h

/-- **C5 (amended).**  For every text, token list and operation list:
*whenever `apply_operations` returns at all* (it raises `ValueError` on a
truthy merge range that is not a two-element list, and `IndexError` on a
gap index below `-len(tokens)` or an insert guard whose token span end lies
outside the current text), the returned `new_text` has exactly the input
text's sequence of non-whitespace characters.  Merges remove only non-empty
pure-whitespace gap slices (the guard `gap.strip() == '' and gap != ''`) and
inserts add exactly one space, so no non-whitespace character is created or
destroyed; no hypothesis on the token spans is needed. -/
theorem C5_apply_preserves_nonspace_amended (text : List Char)
    (tokens_res : TokensResult) (ops : List TokenOperation)
    (res : List Char × TokensResult)
    (h : apply_operations text tokens_res ops = some res) :
    res.1.filter notWs = text.filter notWs := by
  unfold apply_operations at h
  split_ifs at h with hops
  · cases h
    rfl
  · dsimp only at h
    split at h
    · cases h
    · rename_i st1 hm
      split at h
      · cases h
      · rename_i st2 hi
        cases h
        dsimp only
        rw [filter_foldl_bind applyInsertOp filter_applyInsertOp _ st1 st2 hi,
          filter_foldl_bind applyMergeOp filter_applyMergeOp _ _ st1 hm]

def c5Tokens : TokensResult :=
  { text := "שתל 14".toList, tokens := tokenize_t1 (normalize_n0 "שתל 14".toList) }

def c5Ops : List TokenOperation :=
  [{ op := opMerge, after_token_idx := none, range := some [0, 1] },
   { op := opInsert, after_token_idx := some 1, range := none }]

/-- Witness for the amended C5: a merge removing the gap between tokens 0
and 1 followed by an insert after token 1, on a concrete tokenized line,
returns successfully and preserves the non-whitespace characters. -/
theorem C5_apply_preserves_nonspace_amended_witness :
    ∃ res, apply_operations "שתל 14".toList c5Tokens c5Ops = some res
      ∧ res.1.filter notWs = ("שתל 14".toList).filter notWs := by
  have hs : (apply_operations "שתל 14".toList c5Tokens c5Ops).isSome = true := by
    decide
  obtain ⟨res, hres⟩ := Option.isSome_iff_exists.mp hs
  exact ⟨res, hres,
    C5_apply_preserves_nonspace_amended _ c5Tokens c5Ops res hres⟩

def c5CrashTokens : TokensResult :=
  { text := "x y w".toList,
    tokens := [{ idx := 0, text := "w".toList, kind := .word, span := (4, 5),
                 script := none, meta := none },
               { idx := 1, text := "x".toList, kind := .word, span := (0, 1),
                 script := none, meta := none },
               { idx := 2, text := "y".toList, kind := .word, span := (2, 3),
                 script := none, meta := none }] }

def c5CrashOps : List TokenOperation :=
  [{ op := opMerge, after_token_idx := none, range := some [1, 2] },
   { op := opInsert, after_token_idx := some 0, range := none }]

/-- **C5 counterexample.**  The original claim promises a returned
`new_text` for *every* token list whose spans delimit their texts.  On
`c5CrashTokens` every span delimits its token's text within `"x y w"`, yet
the merge removes the whitespace gap between list positions 1 and 2
(shrinking the text to `"xy w"`, length 4) without shifting the span of the
token at position 0, so the subsequent insert's guard evaluates `text[5]`
and Python raises `IndexError` — `apply_operations` never returns a
`new_text`. -/
theorem C5_counterexample :
    (∀ t ∈ c5CrashTokens.tokens,
        (("x y w".toList).drop t.span.1).take (t.span.2 - t.span.1) = t.text
        ∧ t.span.2 ≤ ("x y w".toList).length)
    ∧ apply_operations "x y w".toList c5CrashTokens c5CrashOps = none :=
  ⟨by decide, by decide⟩

/-! ## Block2 utilities (`src/block2/src/pipeline/utils.py`) -/

/-- Python `str.lower()`, restricted to the ASCII letters (the only cased
characters in the pipeline's Hebrew/ASCII data; Hebrew has no case). -/
def pyLower (c : Char) : Char :=
  if 65 ≤ c.toNat ∧ c.toNat ≤ 90 then Char.ofNat (c.toNat + 32) else c

/-- The `[‏‎﻿]` class of `_PUNCT_RE` (bidi marks / BOM). -/
def isBidiMark (c : Char) : Bool :=
  decide (c.toNat = 0x200F ∨ c.toNat = 0x200E ∨ c.toNat = 0xFEFF)

/-- `FINAL_MAP`: Hebrew final letters mapped to their base forms. -/
def finalMap (c : Char) : Char :=
  if c = 'ך' then 'כ'
  else if c = 'ם' then 'מ'
  else if c = 'ן' then 'נ'
  else if c = 'ף' then 'פ'
  else if c = 'ץ' then 'צ'
  else c

/-- `_SPACE_RE.sub(' ', ·)`: every maximal whitespace run becomes one space
(structural recursion on fuel; `l.length` always suffices). -/
def collapseWsF : Nat → List Char → List Char
  | 0, l => l
  | _, [] => []
  | fuel + 1, c :: rest =>
    if isPySpace c then ' ' :: collapseWsF fuel (rest.dropWhile isPySpace)
    else c :: collapseWsF fuel rest

def collapseWs (l : List Char) : List Char := collapseWsF l.length l

/-- Python `str.strip()`. -/
def pyStrip (l : List Char) : List Char :=
  ((l.dropWhile isPySpace).reverse.dropWhile isPySpace).reverse

/-- `normalize_hebrew`: strip bidi marks / BOM, map final letters to base
forms, collapse whitespace and strip, lowercase. -/
def normalize_hebrew (text : List Char) : List Char :=
  if text.isEmpty then text
  else
    (pyStrip (collapseWs ((text.filter (fun c => !(isBidiMark c))).map finalMap))).map
      pyLower

/-! ## Claim C10: idempotence of `normalize_hebrew` -/

theorem pyLower_cases (c : Char) :
    (65 ≤ c.toNat ∧ c.toNat ≤ 90 ∧ (pyLower c).toNat = c.toNat + 32) ∨ pyLower c = c := by
  unfold pyLower
  split_ifs with h
  · left
    refine ⟨h.1, h.2, ?_⟩
    have hv : (c.toNat + 32).isValidChar := Or.inl (by omega)
    unfold Char.ofNat
    rw [dif_pos hv]
    rfl
  · right
    rfl

theorem pyLower_eq_self_of_not_upper {c : Char}
    (h : ¬(65 ≤ c.toNat ∧ c.toNat ≤ 90)) : pyLower c = c := by
  unfold pyLower
  rw [if_neg h]

theorem pyLower_idem (c : Char) : pyLower (pyLower c) = pyLower c := by
  rcases pyLower_cases c with ⟨h1, h2, h3⟩ | h
  · exact pyLower_eq_self_of_not_upper (by omega)
  · rw [h, h]

theorem isPySpace_pyLower (c : Char) : isPySpace (pyLower c) = isPySpace c := by
  rcases pyLower_cases c with ⟨h1, h2, h3⟩ | h
  · have hc1 : isPySpace (pyLower c) = false := by
      simp only [isPySpace, decide_eq_false_iff_not]
      omega
    have hc2 : isPySpace c = false := by
      simp only [isPySpace, decide_eq_false_iff_not]
      omega
    rw [hc1, hc2]
  · rw [h]

theorem isBidiMark_pyLower {c : Char} (h : isBidiMark c = false) :
    isBidiMark (pyLower c) = false := by
  rcases pyLower_cases c with ⟨h1, h2, h3⟩ | heq
  · simp only [isBidiMark, decide_eq_false_iff_not]
    omega
  · rw [heq, h]

theorem finalMap_idem (c : Char) : finalMap (finalMap c) = finalMap c := by
  unfold finalMap
  split_ifs <;> simp_all

theorem isBidiMark_finalMap {c : Char} (h : isBidiMark c = false) :
    isBidiMark (finalMap c) = false := by
  unfold finalMap
  split_ifs <;> first | exact h | decide

theorem isPySpace_finalMap (c : Char) : isPySpace (finalMap c) = isPySpace c := by
  unfold finalMap
  split_ifs with h1 h2 h3 h4 h5
  · subst h1; decide
  · subst h2; decide
  · subst h3; decide
  · subst h4; decide
  · subst h5; decide
  · rfl

theorem finalMap_eq_self_of_ascii {c : Char} (h : c.toNat ≤ 122) :
    finalMap c = c := by
  unfold finalMap
  have k : ∀ d : Char, 1400 ≤ d.toNat → c ≠ d := by
    intro d hd hcon
    subst hcon
    omega
  rw [if_neg (k _ (by decide)), if_neg (k _ (by decide)), if_neg (k _ (by decide)),
    if_neg (k _ (by decide)), if_neg (k _ (by decide))]

theorem map_eq_self_of_id {f : Char → Char} :
    ∀ l : List Char, (∀ c ∈ l, f c = c) → l.map f = l
  | [], _ => rfl
  | a :: t, h => by
    rw [List.map_cons, h a (List.mem_cons_self a t),
      map_eq_self_of_id t (fun c hc => h c (List.mem_cons_of_mem a hc))]

theorem dropWhile_eq_self_of_head (p : Char → Bool) (l : List Char)
    (h : ∀ c ∈ l.head?, p c = false) : l.dropWhile p = l := by
  cases l with
  | nil => rfl
  | cons a t =>
    rw [List.dropWhile_cons, if_neg]
    simp [h a rfl]

theorem head_dropWhile_false (p : Char → Bool) (l : List Char) :
    ∀ c ∈ (l.dropWhile p).head?, p c = false := by
  induction l with
  | nil => intro c hc; cases hc
  | cons a t ih =>
    rw [List.dropWhile_cons]
    split_ifs with ha
    · exact ih
    · intro c hc
      rw [List.head?_cons, Option.mem_def, Option.some_inj] at hc
      subst hc
      simpa using ha

/-- Every maximal-run collapse output character is a space written as `' '`
or a character of the input. -/
theorem mem_collapseWsF : ∀ (fuel : Nat) (l : List Char) (c : Char),
    c ∈ collapseWsF fuel l → c = ' ' ∨ c ∈ l
  | 0, l, c => by
    cases l with
    | nil => intro hc; cases hc
    | cons a t => intro hc; exact Or.inr hc
  | fuel + 1, [], c => fun hc => by cases hc
  | fuel + 1, a :: rest, c => by
    rw [collapseWsF]
    split_ifs with ha
    · intro hc
      rcases List.mem_cons.mp hc with rfl | hc'
      · exact Or.inl rfl
      · rcases mem_collapseWsF fuel _ c hc' with h | h
        · exact Or.inl h
        · exact Or.inr (List.mem_cons_of_mem a
            ((List.dropWhile_suffix isPySpace).sublist.subset h))
    · intro hc
      rcases List.mem_cons.mp hc with rfl | hc'
      · exact Or.inr (List.mem_cons_self _ _)
      · rcases mem_collapseWsF fuel rest c hc' with h | h
        · exact Or.inl h
        · exact Or.inr (List.mem_cons_of_mem a h)

/-- The binary no-two-adjacent-whitespace relation of a collapsed string. -/
def wsRel (a b : Char) : Prop := isPySpace a = true → isPySpace b = false

theorem collapseWsF_head_nonws : ∀ (fuel : Nat) (l : List Char),
    (∀ d ∈ l.head?, isPySpace d = false) →
    ∀ c ∈ (collapseWsF fuel l).head?, isPySpace c = false := by
  intro fuel l h
  cases fuel with
  | zero =>
    cases l with
    | nil => intro c hc; cases hc
    | cons d rest => exact h
  | succ fuel =>
    cases l with
    | nil => intro c hc; cases hc
    | cons d rest =>
      have hd : isPySpace d = false := h d rfl
      rw [collapseWsF, if_neg (by simp [hd])]
      intro c hc
      rw [List.head?_cons, Option.mem_def, Option.some_inj] at hc
      subst hc
      exact hd

theorem collapseWsF_canon : ∀ (fuel : Nat) (l : List Char), l.length ≤ fuel →
    (∀ c ∈ collapseWsF fuel l, isPySpace c = true → c = ' ')
    ∧ List.Chain' wsRel (collapseWsF fuel l) := by
  intro fuel
  induction fuel with
  | zero =>
    intro l hl
    have : l = [] := List.length_eq_zero.mp (Nat.le_zero.mp hl)
    subst this
    exact ⟨fun c hc => absurd hc (List.not_mem_nil c), List.chain'_nil⟩
  | succ fuel ih =>
    intro l hl
    cases l with
    | nil => exact ⟨fun c hc => absurd hc (List.not_mem_nil c), List.chain'_nil⟩
    | cons a rest =>
      rw [collapseWsF]
      split_ifs with ha
      · have hrest : (rest.dropWhile isPySpace).length ≤ fuel := by
          have := (List.dropWhile_suffix (l := rest) isPySpace).sublist.length_le
          simp only [List.length_cons] at hl
          omega
        obtain ⟨ih1, ih2⟩ := ih (rest.dropWhile isPySpace) hrest
        constructor
        · intro c hc
          rcases List.mem_cons.mp hc with rfl | hc'
          · intro _; rfl
          · exact ih1 c hc'
        · rw [List.chain'_cons']
          refine ⟨?_, ih2⟩
          intro y hy
          intro _
          exact collapseWsF_head_nonws fuel _ (head_dropWhile_false _ _) y hy
      · have hrest : rest.length ≤ fuel := by
          simp only [List.length_cons] at hl
          omega
        obtain ⟨ih1, ih2⟩ := ih rest hrest
        constructor
        · intro c hc
          rcases List.mem_cons.mp hc with rfl | hc'
          · intro hcon; rw [hcon] at ha; exact absurd rfl ha
          · exact ih1 c hc'
        · rw [List.chain'_cons']
          refine ⟨?_, ih2⟩
          intro y hy hcon
          rw [hcon] at ha
          exact absurd rfl ha

theorem collapseWsF_eq_self : ∀ (fuel : Nat) (l : List Char), l.length ≤ fuel →
    (∀ c ∈ l, isPySpace c = true → c = ' ') → List.Chain' wsRel l →
    collapseWsF fuel l = l := by
  intro fuel
  induction fuel with
  | zero =>
    intro l hl _ _
    have : l = [] := List.length_eq_zero.mp (Nat.le_zero.mp hl)
    subst this
    rfl
  | succ fuel ih =>
    intro l hl hsp hch
    cases l with
    | nil => rfl
    | cons a rest =>
      rw [collapseWsF]
      rw [List.chain'_cons'] at hch
      split_ifs with ha
      · have ha' : a = ' ' := hsp a (List.mem_cons_self a rest) ha
        have hdrop : rest.dropWhile isPySpace = rest :=
          dropWhile_eq_self_of_head _ _ (fun c hc => hch.1 c hc ha)
        rw [hdrop, ha',
          ih rest (by simp only [List.length_cons] at hl; omega)
            (fun c hc => hsp c (List.mem_cons_of_mem a hc)) hch.2]
      · rw [ih rest (by simp only [List.length_cons] at hl; omega)
          (fun c hc => hsp c (List.mem_cons_of_mem a hc)) hch.2]

theorem mem_pyStrip {l : List Char} {c : Char} (h : c ∈ pyStrip l) : c ∈ l := by
  unfold pyStrip at h
  rw [List.mem_reverse] at h
  have h2 := (List.dropWhile_suffix isPySpace).sublist.subset h
  rw [List.mem_reverse] at h2
  exact (List.dropWhile_suffix isPySpace).sublist.subset h2

theorem pyStrip_eq_self (l : List Char)
    (hh : ∀ c ∈ l.head?, isPySpace c = false)
    (hl : ∀ c ∈ l.getLast?, isPySpace c = false) :
    pyStrip l = l := by
  unfold pyStrip
  rw [dropWhile_eq_self_of_head _ _ hh]
  rw [dropWhile_eq_self_of_head _ _ (by rw [List.head?_reverse]; exact hl)]
  exact List.reverse_reverse l

theorem pyStrip_within (l : List Char) : pyStrip l <:+: l := by
  unfold pyStrip
  have h1 : (l.dropWhile isPySpace) <:+ l := List.dropWhile_suffix _
  have h2 : ((l.dropWhile isPySpace).reverse.dropWhile isPySpace)
      <:+ (l.dropWhile isPySpace).reverse := List.dropWhile_suffix _
  have h3 : ((l.dropWhile isPySpace).reverse.dropWhile isPySpace).reverse
      <+: (l.dropWhile isPySpace) := by
    obtain ⟨pre, hpre⟩ := h2
    refine ⟨pre.reverse, ?_⟩
    rw [← List.reverse_append, hpre, List.reverse_reverse]
  exact h3.isInfix.trans h1.isInfix

theorem getLast?_dropWhile_of_ne_nil (p : Char → Bool) (v : List Char)
    (h : v.dropWhile p ≠ []) : (v.dropWhile p).getLast? = v.getLast? := by
  obtain ⟨pre, hpre⟩ := List.dropWhile_suffix (l := v) p
  conv_rhs => rw [← hpre]
  rw [List.getLast?_append_of_ne_nil _ h]

theorem pyStrip_head_nonws (l : List Char) :
    ∀ c ∈ (pyStrip l).head?, isPySpace c = false := by
  intro c hc
  unfold pyStrip at hc
  rw [List.head?_reverse] at hc
  by_cases hv : (l.dropWhile isPySpace).reverse.dropWhile isPySpace = []
  · rw [hv] at hc
    cases hc
  · rw [getLast?_dropWhile_of_ne_nil _ _ hv, List.getLast?_reverse] at hc
    exact head_dropWhile_false _ _ c hc

theorem pyStrip_getLast_nonws (l : List Char) :
    ∀ c ∈ (pyStrip l).getLast?, isPySpace c = false := by
  intro c hc
  unfold pyStrip at hc
  rw [List.getLast?_reverse] at hc
  exact head_dropWhile_false _ _ c hc

/-- **C10.**  The Hebrew surface normalization used by the gazetteer and
fuzzy matching is idempotent: `normalize_hebrew (normalize_hebrew s)
= normalize_hebrew s` for every string `s` — a surface with bidi/BOM marks
stripped, final Hebrew letters mapped to base forms, whitespace collapsed
and trimmed, and letters lowercased is a fixed point, so index keys and
query surfaces live in the same normal form. -/
theorem C10_normalize_hebrew_idempotent (s : List Char) :
    normalize_hebrew (normalize_hebrew s) = normalize_hebrew s := by
  by_cases hs : s.isEmpty
  · have h0 : s = [] := List.isEmpty_iff.mp hs
    subst h0
    rfl
  · set t := normalize_hebrew s with ht
    by_cases hts : t.isEmpty
    · unfold normalize_hebrew
      rw [if_pos hts]
    · set u := (s.filter (fun c => !(isBidiMark c))).map finalMap with hu
      have htdef : t = (pyStrip (collapseWs u)).map pyLower := by
        rw [ht]
        unfold normalize_hebrew
        rw [if_neg hs]
      have horigin : ∀ c ∈ t, ∃ d, c = pyLower d ∧
          (d = ' ' ∨ ∃ e, isBidiMark e = false ∧ d = finalMap e) := by
        intro c hc
        rw [htdef] at hc
        obtain ⟨d, hd, hdc⟩ := List.mem_map.mp hc
        have hd2 : d ∈ collapseWs u := mem_pyStrip hd
        refine ⟨d, hdc.symm, ?_⟩
        rcases mem_collapseWsF u.length u d hd2 with h | h
        · exact Or.inl h
        · right
          obtain ⟨e, he, hde⟩ := List.mem_map.mp h
          have hef := (List.mem_filter.mp he).2
          exact ⟨e, by simpa using hef, hde.symm⟩
      have hP1 : ∀ c ∈ t, (!(isBidiMark c)) = true := by
        intro c hc
        obtain ⟨d, rfl, hd⟩ := horigin c hc
        have hdb : isBidiMark d = false := by
          rcases hd with rfl | ⟨e, he, rfl⟩
          · decide
          · exact isBidiMark_finalMap he
        rw [isBidiMark_pyLower hdb]
        rfl
      have hP2 : ∀ c ∈ t, finalMap c = c := by
        intro c hc
        obtain ⟨d, rfl, hd⟩ := horigin c hc
        rcases pyLower_cases d with ⟨h1, h2, h3⟩ | heq
        · exact finalMap_eq_self_of_ascii (by omega)
        · rw [heq]
          rcases hd with rfl | ⟨e, he, rfl⟩
          · decide
          · exact finalMap_idem e
      obtain ⟨hc1, hc2⟩ := collapseWsF_canon u.length u le_rfl
      have hP3a : ∀ c ∈ t, isPySpace c = true → c = ' ' := by
        intro c hc hcs
        rw [htdef] at hc
        obtain ⟨d, hd, hdc⟩ := List.mem_map.mp hc
        subst hdc
        rw [isPySpace_pyLower] at hcs
        rw [hc1 d (mem_pyStrip hd) hcs]
        decide
      have hP3b : List.Chain' wsRel t := by
        rw [htdef, List.chain'_map]
        refine ( List.Chain'.infix hc2 (pyStrip_within _)).imp ?_
        intro a b hab hsp
        rw [isPySpace_pyLower] at hsp ⊢
        exact hab hsp
      have hP4h : ∀ c ∈ t.head?, isPySpace c = false := by
        rw [htdef, List.head?_map]
        intro c hc
        obtain ⟨d, hd, hdc⟩ := Option.map_eq_some'.mp (Option.mem_def.mp hc)
        subst hdc
        rw [isPySpace_pyLower]
        exact pyStrip_head_nonws _ d (Option.mem_def.mpr hd)
      have hP4l : ∀ c ∈ t.getLast?, isPySpace c = false := by
        rw [htdef, List.getLast?_map]
        intro c hc
        obtain ⟨d, hd, hdc⟩ := Option.map_eq_some'.mp (Option.mem_def.mp hc)
        subst hdc
        rw [isPySpace_pyLower]
        exact pyStrip_getLast_nonws _ d (Option.mem_def.mpr hd)
      have hPLow : ∀ c ∈ t, pyLower c = c := by
        intro c hc
        obtain ⟨d, rfl, _⟩ := horigin c hc
        exact pyLower_idem d
      unfold normalize_hebrew
      rw [if_neg hts, List.filter_eq_self.mpr hP1, map_eq_self_of_id t hP2,
        show collapseWs t = t from collapseWsF_eq_self t.length t le_rfl hP3a hP3b,
        pyStrip_eq_self t hP4h hP4l]
      exact map_eq_self_of_id t hPLow

/-! ## Hybrid ranker (`src/block2/src/pipeline/hybrid_ranker.py`)

Python float scores are embedded as rationals.  Candidate dicts become
records with one `Option` field per optional key (a missing key is `none`).
`merge_and_rank` reads its two inputs from JSON-lines files; the parsed file
contents are passed in as lists, and the `Dict[str, ...]` accumulators keep
Python dict semantics: insertion order, with an existing key overwritten in
place.  `GazetteerHit.ngram`/`covered_token_idxs`/`normalized_surface`/
`match_type` and `VectorHit.context` are omitted — `merge_and_rank` never
reads them. -/

def lowerL (l : List Char) : List Char := l.map pyLower

structure Candidate where
  iri : List Char
  label : List Char
  score_lex : Option ℚ := none
  score_vec : Option ℚ := none
  norm_vec : Option ℚ := none
  score_prior : Option ℚ := none
  iri_source : Option (List Char) := none
  source : Option (List Char) := none
  score_final : ℚ := 0
  deriving Repr, DecidableEq

instance : Inhabited Candidate := ⟨{ iri := [], label := [] }⟩

structure GazetteerHit where
  mention_id : List Char
  surface : List Char
  span : Int × Int
  candidates_lex : List Candidate
  hints : List (List Char)
  deriving Repr, DecidableEq

structure VectorHit where
  mention_id : List Char
  surface : List Char
  span : Option (Int × Int)
  candidates_vec : List Candidate
  deriving Repr, DecidableEq

structure MentionCandidates where
  mention_id : List Char
  surface : List Char
  span : Int × Int
  hints : List (List Char)
  candidates : List Candidate
  confident_singleton : Bool := false
  deriving Repr, DecidableEq

/-- `Block2Config` (`src/block2/src/common/config.py`): the environment-
configurable fields `merge_and_rank` reads, with the source defaults. -/
structure Block2Config where
  W_LEX : ℚ
  W_VEC : ℚ
  W_PRIOR : ℚ
  W_CTX : ℚ
  TOPK_FINAL : Nat
  deriving Repr, DecidableEq

def defaultConfig : Block2Config :=
  { W_LEX := 6/10, W_VEC := 3/10, W_PRIOR := 6/100, W_CTX := 4/100, TOPK_FINAL := 5 }

/-- `hits[obj.mention_id] = obj` on a Python dict: overwrite in place if the
key exists, else append. -/
def dictUpsertGaz (acc : List GazetteerHit) (h : GazetteerHit) : List GazetteerHit :=
  if acc.any (fun x => x.mention_id == h.mention_id) then
    acc.map (fun x => if x.mention_id == h.mention_id then h else x)
  else acc ++ [h]

/-- `_load_gazetteer_hits` on already-parsed lines. -/
def load_gazetteer_hits (ls : List GazetteerHit) : List GazetteerHit :=
  ls.foldl dictUpsertGaz []

/-- Seeding one `MentionCandidates` from a gazetteer hit: only the `iri`,
`label` and `score_lex` keys of each lexical candidate are copied. -/
def seedMention (gh : GazetteerHit) : MentionCandidates :=
  { mention_id := gh.mention_id, surface := gh.surface, span := gh.span,
    hints := gh.hints,
    candidates := gh.candidates_lex.map (fun c =>
      { iri := c.iri, label := c.label, score_lex := some (c.score_lex.getD 0) }) }

/-- The `overlaps(span, others)` helper. -/
def overlapsSpans (span : Int × Int) (others : List (Int × Int)) : Bool :=
  others.any (fun o => !(decide (span.2 ≤ o.1) || decide (span.1 ≥ o.2)))

/-- A vector candidate as appended to a mention: only `iri`, `label` and
`score_vec` are copied. -/
def vecCandidate (c : Candidate) : Candidate :=
  { iri := c.iri, label := c.label, score_vec := some (c.score_vec.getD 0) }

/-- Append the vector hit's candidates to the first mention whose surface
contains the hit's surface case-insensitively (the `break` in the source). -/
def attachFirst : List MentionCandidates → VectorHit → List MentionCandidates
  | [], _ => []
  | mc :: rest, vh =>
    if decide (List.IsInfix (lowerL vh.surface) (lowerL mc.surface)) then
      { mc with candidates := mc.candidates ++ vh.candidates_vec.map vecCandidate } :: rest
    else mc :: attachFirst rest vh

/-- `merged[mid] = MentionCandidates(...)` (dict upsert). -/
def dictUpsertMention (acc : List MentionCandidates) (m : MentionCandidates) :
    List MentionCandidates :=
  if acc.any (fun x => x.mention_id == m.mention_id) then
    acc.map (fun x => if x.mention_id == m.mention_id then m else x)
  else acc ++ [m]

/-- One iteration of the `for vh in vec_hits` loop: attach to an existing
mention by surface containment, else create a new mention when the span is
`(0,0)` or does not overlap the seeded spans (`existing_spans` is computed
once, before the loop). -/
def attachVector (existing_spans : List (Int × Int))
    (merged : List MentionCandidates) (vh : VectorHit) : List MentionCandidates :=
  if merged.any (fun mc => decide (List.IsInfix (lowerL vh.surface) (lowerL mc.surface))) then
    attachFirst merged vh
  else
    let span := vh.span.getD (0, 0)
    if span = (0, 0) ∨ overlapsSpans span existing_spans = false then
      dictUpsertMention merged
        { mention_id := vh.mention_id, surface := vh.surface, span := span,
          hints := [], candidates := vh.candidates_vec.map vecCandidate }
    else merged

/-- `_norm_scores`: min-max scaling, all-zero when uniform. -/
def norm_scores (vals : List ℚ) : List ℚ :=
  match vals with
  | [] => []
  | v :: rest =>
    let mx := rest.foldl max v
    let mn := rest.foldl min v
    if mx = mn then vals.map (fun _ => 0)
    else vals.map (fun x => (x - mn) / (mx - mn))

/-- The `vec_iter` consumption loop: candidates with a present, positive
`score_vec` take the next normalized score (`next(vec_iter, 0.0)`); all
others get `norm_vec = 0.0` without advancing the iterator. -/
def assignNormVec : List Candidate → List ℚ → List Candidate
  | [], _ => []
  | c :: cs, norms =>
    if c.score_vec.isSome ∧ 0 < c.score_vec.getD 0 then
      { c with norm_vec := some (norms.headD 0) } :: assignNormVec cs norms.tail
    else
      { c with norm_vec := some 0 } :: assignNormVec cs norms

/-- The per-candidate score assembly: weighted combination of the present
signals normalized by the sum of the used weights, `alias_only` penalty,
context component (fixed at 0). -/
def scoreCandidate (cfg : Block2Config) (c : Candidate) : Candidate :=
  let lex := c.score_lex.getD 0
  let prior := c.score_prior.getD 0
  let ctx_component : ℚ := 0
  let vecPart : Option ℚ :=
    match c.norm_vec with
    | some v => if 0 < v then some v else none
    | none => none
  let priorPart : Option ℚ := if 0 < prior then some prior else none
  let Z : ℚ := cfg.W_LEX + (if vecPart.isSome then cfg.W_VEC else 0)
    + (if priorPart.isSome then cfg.W_PRIOR else 0)
  let num : ℚ := cfg.W_LEX * lex + (vecPart.map (fun v => cfg.W_VEC * v)).getD 0
    + (priorPart.map (fun p => cfg.W_PRIOR * p)).getD 0
  let raw0 : ℚ := num / (if Z = 0 then 1 / 1000000000 else Z)
  let iri_src : Option (List Char) :=
    match c.iri_source with
    | some s => if s.isEmpty then c.source else some s
    | none => c.source
  let raw : ℚ :=
    if iri_src = some ("alias_only".toList) then max 0 (raw0 - 8 / 100) else raw0
  { c with score_final := raw + ctx_component }

/-- `mc.candidates.sort(key=score_final, reverse=True)`: stable descending
sort. -/
def sortByFinalDesc (cs : List Candidate) : List Candidate :=
  cs.insertionSort (fun a b => b.score_final ≤ a.score_final)

/-- The per-mention scoring pass: normalized vector assignment, final-score
computation, stable descending sort, confident-singleton rules, top-K
truncation. -/
def scoreMention (cfg : Block2Config) (mc : MentionCandidates) : MentionCandidates :=
  let vec_scores := mc.candidates.filterMap (fun c => c.score_vec)
  let norm_vec_all := if vec_scores.any (fun vs => decide (0 < vs))
    then norm_scores vec_scores else []
  let cands2 := (assignNormVec mc.candidates norm_vec_all).map (scoreCandidate cfg)
  let cands3 := sortByFinalDesc cands2
  let res :=
    if cands3.length = 1 then
      if (9 : ℚ) / 10 ≤ (cands3.headD default).score_lex.getD 0 then
        { mc with candidates := cands3, confident_singleton := true }
      else { mc with candidates := cands3 }
    else
      let strong := cands3.filter (fun c => decide ((9 : ℚ) / 10 ≤ c.score_lex.getD 0))
      if strong.length = 1 then
        { mc with candidates := strong, confident_singleton := true }
      else { mc with candidates := cands3 }
  { res with candidates := res.candidates.take cfg.TOPK_FINAL }

/-- `merge_and_rank` on parsed inputs. -/
def merge_and_rank (cfg : Block2Config) (gazLines : List GazetteerHit)
    (vecLines : List VectorHit) : List MentionCandidates :=
  let seeded := (load_gazetteer_hits gazLines).map seedMention
  let existing_spans := seeded.map (fun mc => mc.span)
  let merged := vecLines.foldl (attachVector existing_spans) seeded
  merged.map (scoreMention cfg)

/-! ## Claims C6/C7: score fusion -/

/-- Candidates as they are actually constructed inside `merge_and_rank`:
the seeding and the vector phase copy only `iri`/`label` and one score key,
so no candidate ever carries `score_prior`, `iri_source` or `source`. -/
def CleanCand (c : Candidate) : Prop :=
  c.score_prior = none ∧ c.iri_source = none ∧ c.source = none

theorem seedMention_clean (gh : GazetteerHit) :
    ∀ c ∈ (seedMention gh).candidates, CleanCand c ∧ c.score_vec = none := by
  intro c hc
  obtain ⟨c₀, _, rfl⟩ := List.mem_map.mp hc
  exact ⟨⟨rfl, rfl, rfl⟩, rfl⟩

theorem vecCandidate_clean (c : Candidate) : CleanCand (vecCandidate c) :=
  ⟨rfl, rfl, rfl⟩

theorem attachFirst_clean (vh : VectorHit) :
    ∀ ms : List MentionCandidates,
      (∀ mc ∈ ms, ∀ c ∈ mc.candidates, CleanCand c) →
      ∀ mc ∈ attachFirst ms vh, ∀ c ∈ mc.candidates, CleanCand c
  | [], _ => by intro mc hmc; cases hmc
  | m :: rest, h => by
    rw [attachFirst]
    split_ifs with hs
    · intro mc hmc
      rcases List.mem_cons.mp hmc with rfl | hmc'
      · intro c hc
        rcases List.mem_append.mp hc with hc' | hc'
        · exact h m (List.mem_cons_self m rest) c hc'
        · obtain ⟨c₀, _, rfl⟩ := List.mem_map.mp hc'
          exact vecCandidate_clean c₀
      · exact h mc (List.mem_cons_of_mem m hmc')
    · intro mc hmc
      rcases List.mem_cons.mp hmc with rfl | hmc'
      · exact h mc (List.mem_cons_self mc rest)
      · exact attachFirst_clean vh rest
          (fun x hx => h x (List.mem_cons_of_mem m hx)) mc hmc'

theorem dictUpsertMention_clean (acc : List MentionCandidates)
    (m : MentionCandidates)
    (hacc : ∀ mc ∈ acc, ∀ c ∈ mc.candidates, CleanCand c)
    (hm : ∀ c ∈ m.candidates, CleanCand c) :
    ∀ mc ∈ dictUpsertMention acc m, ∀ c ∈ mc.candidates, CleanCand c := by
  unfold dictUpsertMention
  split_ifs with h
  · intro mc hmc
    obtain ⟨x, hx, hxe⟩ := List.mem_map.mp hmc
    by_cases hid : x.mention_id == m.mention_id
    · rw [if_pos hid] at hxe
      subst hxe
      exact hm
    · rw [if_neg hid] at hxe
      subst hxe
      exact hacc x hx
  · intro mc hmc
    rcases List.mem_append.mp hmc with hmc' | hmc'
    · exact hacc mc hmc'
    · rw [List.mem_singleton.mp hmc']
      exact hm

theorem attachVector_clean (spans : List (Int × Int)) (acc : List MentionCandidates)
    (vh : VectorHit) (hacc : ∀ mc ∈ acc, ∀ c ∈ mc.candidates, CleanCand c) :
    ∀ mc ∈ attachVector spans acc vh, ∀ c ∈ mc.candidates, CleanCand c := by
  unfold attachVector
  dsimp only
  split_ifs with h1 h2
  · exact attachFirst_clean vh acc hacc
  · refine dictUpsertMention_clean acc _ hacc ?_
    intro c hc
    obtain ⟨c₀, _, rfl⟩ := List.mem_map.mp hc
    exact vecCandidate_clean c₀
  · exact hacc

theorem foldl_attachVector_clean (spans : List (Int × Int)) :
    ∀ (vhs : List VectorHit) (acc : List MentionCandidates),
      (∀ mc ∈ acc, ∀ c ∈ mc.candidates, CleanCand c) →
      ∀ mc ∈ vhs.foldl (attachVector spans) acc, ∀ c ∈ mc.candidates, CleanCand c
  | [], acc, hacc => hacc
  | vh :: vhs, acc, hacc => by
    rw [List.foldl_cons]
    exact foldl_attachVector_clean spans vhs _ (attachVector_clean spans acc vh hacc)

theorem assignNormVec_mem :
    ∀ (cs : List Candidate) (norms : List ℚ) (c : Candidate),
      c ∈ assignNormVec cs norms →
      ∃ c₀ ∈ cs, ∃ x : ℚ, c = { c₀ with norm_vec := some x }
        ∧ (¬(c₀.score_vec.isSome ∧ 0 < c₀.score_vec.getD 0) → x = 0)
  | [], norms, c => by intro hc; cases hc
  | c₀ :: cs, norms, c => by
    rw [assignNormVec]
    split_ifs with hcond
    · intro hc
      rcases List.mem_cons.mp hc with rfl | hc'
      · exact ⟨c₀, List.mem_cons_self _ _, norms.headD 0, rfl, fun h => absurd hcond h⟩
      · obtain ⟨d, hd, x, hx, hx0⟩ := assignNormVec_mem cs norms.tail c hc'
        exact ⟨d, List.mem_cons_of_mem c₀ hd, x, hx, hx0⟩
    · intro hc
      rcases List.mem_cons.mp hc with rfl | hc'
      · exact ⟨c₀, List.mem_cons_self _ _, 0, rfl, fun _ => rfl⟩
      · obtain ⟨d, hd, x, hx, hx0⟩ := assignNormVec_mem cs norms c hc'
        exact ⟨d, List.mem_cons_of_mem c₀ hd, x, hx, hx0⟩

theorem scoreMention_mem_decomp (cfg : Block2Config) (mc : MentionCandidates) :
    ∀ c ∈ (scoreMention cfg mc).candidates,
      ∃ c₀ ∈ mc.candidates, ∃ x : ℚ,
        c = scoreCandidate cfg { c₀ with norm_vec := some x }
        ∧ (¬(c₀.score_vec.isSome ∧ 0 < c₀.score_vec.getD 0) → x = 0) := by
  intro c hc
  unfold scoreMention at hc
  dsimp only at hc
  have hc3 : ∃ norms, c ∈ sortByFinalDesc
      ((assignNormVec mc.candidates norms).map (scoreCandidate cfg)) := by
    split_ifs at hc <;> dsimp only at hc <;>
      first
      | exact ⟨_, List.take_subset _ _ hc⟩
      | exact ⟨_, List.mem_of_mem_filter (List.take_subset _ _ hc)⟩
  obtain ⟨norms, hc3⟩ := hc3
  unfold sortByFinalDesc at hc3
  have hc2 := (List.perm_insertionSort _ _).mem_iff.mp hc3
  obtain ⟨c₁, hc1, rfl⟩ := List.mem_map.mp hc2
  obtain ⟨c₀, h0, x, rfl, hx⟩ := assignNormVec_mem _ _ _ hc1
  exact ⟨c₀, h0, x, rfl, hx⟩

theorem scoreCandidate_lex_only (cfg : Block2Config) (hW : cfg.W_LEX ≠ 0)
    (c : Candidate)
    (hvec : c.norm_vec = some 0) (hprior : c.score_prior = none)
    (hsrc : c.iri_source = none) (hsrc2 : c.source = none) :
    (scoreCandidate cfg c).score_final = c.score_lex.getD 0 := by
  unfold scoreCandidate
  dsimp only
  rw [hvec, hprior, hsrc, hsrc2]
  simp only [lt_irrefl, if_false, Option.getD_none, Option.map_none', Option.isSome_none,
    Bool.false_eq_true, add_zero, if_neg hW, reduceCtorEq, mul_div_cancel_left₀ _ hW]

/-- Shared helper for C6 and C7: every candidate of every ranked mention
whose own vector signal is absent or non-positive gets exactly its lexical
score (the candidates `merge_and_rank` builds never carry `score_prior` /
`iri_source` / `source`, so neither the prior term nor the alias penalty can
fire). -/
theorem merge_and_rank_no_vec_helper (cfg : Block2Config) (hW : cfg.W_LEX ≠ 0)
    (gazLines : List GazetteerHit) (vecLines : List VectorHit) :
    ∀ mc ∈ merge_and_rank cfg gazLines vecLines, ∀ c ∈ mc.candidates,
      ¬(0 < c.score_vec.getD 0) → c.score_final = c.score_lex.getD 0 := by
  intro mc hmc c hc hvec
  unfold merge_and_rank at hmc
  dsimp only at hmc
  obtain ⟨mc₀, hmc0, rfl⟩ := List.mem_map.mp hmc
  have hclean : ∀ d ∈ mc₀.candidates, CleanCand d := by
    refine foldl_attachVector_clean _ _ _ ?_ mc₀ hmc0
    intro m hm
    obtain ⟨gh, _, rfl⟩ := List.mem_map.mp hm
    exact fun d hd => (seedMention_clean gh d hd).1
  obtain ⟨c₀, h0, x, rfl, hx⟩ := scoreMention_mem_decomp cfg mc₀ c hc
  obtain ⟨hp, hi, hsrc⟩ := hclean c₀ h0
  have hvec0 : c₀.score_vec = ({ c₀ with norm_vec := some x } : Candidate).score_vec := rfl
  have hveq : (scoreCandidate cfg { c₀ with norm_vec := some x }).score_vec
      = c₀.score_vec := rfl
  have hx0 : x = 0 := by
    refine hx ?_
    rintro ⟨_, hpos⟩
    rw [← hveq] at hpos
    exact hvec hpos
  subst hx0
  exact scoreCandidate_lex_only cfg hW { c₀ with norm_vec := some 0 } rfl hp hi hsrc

/-- **C6.**  For every configuration with a non-zero lexical weight (default
`0.6`) and all inputs: in every mention produced by `merge_and_rank` in
which no candidate carries any vector evidence (no positive `score_vec` on
any candidate of that mention), every candidate's `score_final` equals its
`score_lex` (a missing `score_lex` reads as `0.0`, as in the source)
exactly. -/
theorem C6_no_vector_reduces_to_lexical (cfg : Block2Config) (hW : cfg.W_LEX ≠ 0)
    (gazLines : List GazetteerHit) (vecLines : List VectorHit) :
    ∀ mc ∈ merge_and_rank cfg gazLines vecLines,
      (∀ c ∈ mc.candidates, ¬(0 < c.score_vec.getD 0)) →
      ∀ c ∈ mc.candidates, c.score_final = c.score_lex.getD 0 :=
  fun mc hmc hyp c hc =>
    merge_and_rank_no_vec_helper cfg hW gazLines vecLines mc hmc c hc (hyp c hc)

theorem defaultConfig_W_LEX_ne_zero : defaultConfig.W_LEX ≠ 0 := by norm_num [defaultConfig]

theorem assignNormVec_length : ∀ (cs : List Candidate) (norms : List ℚ),
    (assignNormVec cs norms).length = cs.length
  | [], _ => rfl
  | c :: cs, norms => by
    rw [assignNormVec]
    split_ifs <;> simp only [List.length_cons, assignNormVec_length]

theorem scoreMention_mention_id (cfg : Block2Config) (m : MentionCandidates) :
    (scoreMention cfg m).mention_id = m.mention_id := by
  unfold scoreMention
  dsimp only
  split_ifs <;> rfl

theorem scoreMention_candidates_ne_nil (cfg : Block2Config) (hK : cfg.TOPK_FINAL ≠ 0)
    (m : MentionCandidates) (hm : m.candidates ≠ []) :
    (scoreMention cfg m).candidates ≠ [] := by
  have hlen : ∀ norms : List ℚ, (sortByFinalDesc ((assignNormVec m.candidates norms).map
      (scoreCandidate cfg))).length = m.candidates.length := by
    intro norms
    unfold sortByFinalDesc
    rw [(List.perm_insertionSort _ _).length_eq, List.length_map, assignNormVec_length]
  unfold scoreMention
  dsimp only
  split_ifs <;> dsimp only <;> intro hcon <;>
    rcases List.take_eq_nil_iff.mp hcon with h | h
  all_goals try exact hK h
  all_goals try simp_all
  all_goals
    refine hm ?_
    have h2 := congrArg List.length h
    rw [hlen] at h2
    simp only [List.length_nil] at h2
    exact List.length_eq_zero.mp h2

/-- All-lexical-ones mentions: every candidate of the scored mention keeps
`score_lex = 1` and gets `score_final = 1`. -/
theorem scoreMention_lex_one (cfg : Block2Config) (hW : cfg.W_LEX ≠ 0)
    (mc₀ : MentionCandidates)
    (h : ∀ c ∈ mc₀.candidates, c.score_prior = none ∧ c.iri_source = none ∧
          c.source = none ∧ c.score_vec = none ∧ c.score_lex = some 1) :
    ∀ c ∈ (scoreMention cfg mc₀).candidates, c.score_lex = some 1 ∧ c.score_final = 1 := by
  intro c hc
  obtain ⟨c₀, h0, x, rfl, hx⟩ := scoreMention_mem_decomp cfg mc₀ c hc
  obtain ⟨hp, hi, hs, hv, hl⟩ := h c₀ h0
  have hx0 : x = 0 := hx (fun hcon => by rw [hv] at hcon; simp at hcon)
  subst hx0
  constructor
  · exact hl
  · have heq := scoreCandidate_lex_only cfg hW { c₀ with norm_vec := some 0 } rfl hp hi hs
    rw [heq]
    show c₀.score_lex.getD 0 = 1
    rw [hl]
    rfl

theorem seedMention_lex_one (gh : GazetteerHit)
    (h : ∀ c ∈ gh.candidates_lex, c.score_lex = some 1) :
    ∀ c ∈ (seedMention gh).candidates, c.score_prior = none ∧ c.iri_source = none ∧
      c.source = none ∧ c.score_vec = none ∧ c.score_lex = some 1 := by
  intro c hc
  obtain ⟨c₀, hc0, rfl⟩ := List.mem_map.mp hc
  refine ⟨rfl, rfl, rfl, rfl, ?_⟩
  dsimp only
  rw [h c₀ hc0]
  rfl

/-- The failing input of `test_v4_placeholder_penalty`: a real OHD candidate
and an `alias_only` placeholder, both with `score_lex = 1.0`, no vector
file. -/
def ghRealC7 : GazetteerHit :=
  { mention_id := "m0_0_5".toList
    surface := "מולטיוניט".toList
    span := (0, 5)
    candidates_lex := [{ iri := "http://purl.obolibrary.org/obo/OHD_0000001".toList
                         label := "multi unit abutment".toList
                         score_lex := some 1
                         iri_source := some ("ohd_label".toList) }]
    hints := ["device_hint".toList] }

def ghPlaceholderC7 : GazetteerHit :=
  { mention_id := "m0_6_11".toList
    surface := "מולטיוניט".toList
    span := (6, 11)
    candidates_lex := [{ iri := "DEVICE:multiunit_abutment".toList
                         label := "multi unit abutment".toList
                         score_lex := some 1
                         iri_source := some ("alias_only".toList) }]
    hints := ["device_hint".toList] }

/-- **C7.**  The claim says a fixed `0.08` penalty is subtracted (floored at
`0`) for candidates whose gazetteer `iri_source` is `alias_only`, so on the
failing input of `test_v4_placeholder_penalty` the placeholder mention
`m0_6_11` should score `max 0 (1 - 0.08) = 0.92`.  The code disagrees: the
seeding in `merge_and_rank` copies only `iri`, `label` and `score_lex` from
the gazetteer candidates, dropping `iri_source`, so the penalty branch can
never fire and every candidate — including the `alias_only` placeholder —
keeps `score_final = 1` exactly. -/
theorem C7_alias_penalty_dead :
    ∃ mc ∈ merge_and_rank defaultConfig [ghRealC7, ghPlaceholderC7] [],
      mc.mention_id = "m0_6_11".toList
      ∧ mc.candidates ≠ []
      ∧ ∀ c ∈ mc.candidates, c.score_lex = some 1 ∧ c.score_final = 1 := by
  have hout : merge_and_rank defaultConfig [ghRealC7, ghPlaceholderC7] []
      = [scoreMention defaultConfig (seedMention ghRealC7),
         scoreMention defaultConfig (seedMention ghPlaceholderC7)] := rfl
  refine ⟨scoreMention defaultConfig (seedMention ghPlaceholderC7), ?_, ?_, ?_, ?_⟩
  · rw [hout]
    exact List.mem_cons_of_mem _ (List.mem_cons_self _ _)
  · rw [scoreMention_mention_id]
    rfl
  · refine scoreMention_candidates_ne_nil defaultConfig (by decide) _ ?_
    exact List.cons_ne_nil _ _
  · refine scoreMention_lex_one defaultConfig defaultConfig_W_LEX_ne_zero _
      (seedMention_lex_one ghPlaceholderC7 ?_)
    intro c hc
    rcases List.mem_singleton.mp hc with rfl
    rfl

def c6Gaz : GazetteerHit :=
  { mention_id := "m0_0_3".toList
    surface := "שתל".toList
    span := (0, 3)
    candidates_lex := [{ iri := "I1".toList, label := "dental implant".toList,
                         score_lex := some (9 / 10) }]
    hints := [] }

/-- Witness for C6 at the default configuration and a concrete lexical-only
input. -/
theorem C6_no_vector_reduces_to_lexical_witness :
    defaultConfig.W_LEX ≠ 0
    ∧ (∀ mc ∈ merge_and_rank defaultConfig [c6Gaz] [],
        (∀ c ∈ mc.candidates, ¬(0 < c.score_vec.getD 0)) →
        ∀ c ∈ mc.candidates, c.score_final = c.score_lex.getD 0) :=
  ⟨defaultConfig_W_LEX_ne_zero,
    C6_no_vector_reduces_to_lexical defaultConfig defaultConfig_W_LEX_ne_zero [c6Gaz] []⟩

/-! ## Claim C8: gazetteer overlap resolution -/

/-- `not (span[1] <= s0 or span[0] >= s1)`: the overlap test of
`longest_non_overlapping` (`x >= y` is `y <= x`). -/
def spanOverlapsB (a b : Int × Int) : Bool :=
  !(decide (a.2 ≤ b.1) || decide (b.2 ≤ a.1))

/-- One iteration of the `for span, meta in mlist` loop of
`longest_non_overlapping`: skip a span overlapping anything already taken,
else append `(span[0], span[1], meta)`. -/
def lnoStep {α : Type} (taken : List (Int × Int × α)) (m : (Int × Int) × α) :
    List (Int × Int × α) :=
  if taken.any (fun t => spanOverlapsB m.1 (t.1, t.2.1)) then taken
  else taken ++ [(m.1.1, m.1.2, m.2)]

/-- `longest_non_overlapping(mlist)` (`t2_gazetteer.py`): first-come
greedy selection in the order of the input list. -/
def longest_non_overlapping {α : Type} (mlist : List ((Int × Int) × α)) :
    List (Int × Int × α) :=
  mlist.foldl lnoStep []

/-- Modelled from the spec: the selection the claim describes — consider the
candidate spans in order of decreasing span length (stable) and discard any
span that overlaps an already-kept span. -/
def longestFirstSelection {α : Type} (mlist : List ((Int × Int) × α)) :
    List (Int × Int × α) :=
  (mlist.insertionSort (fun a b => b.1.2 - b.1.1 ≤ a.1.2 - a.1.1)).foldl lnoStep []

def c8Matches : List ((Int × Int) × Nat) := [((0, 1), 0), ((0, 5), 1)]

theorem spanOverlapsB_comm (a b : Int × Int) : spanOverlapsB a b = spanOverlapsB b a := by
  unfold spanOverlapsB
  rw [Bool.or_comm]

theorem lnoStep_extends {α : Type} (taken : List (Int × Int × α)) (m : (Int × Int) × α) :
    taken <+: lnoStep taken m := by
  unfold lnoStep
  split_ifs
  · exact List.prefix_refl taken
  · exact ⟨_, rfl⟩

theorem foldl_lnoStep_extends {α : Type} :
    ∀ (ms : List ((Int × Int) × α)) (acc : List (Int × Int × α)),
      acc <+: ms.foldl lnoStep acc
  | [], acc => List.prefix_refl acc
  | m :: ms, acc => by
    rw [List.foldl_cons]
    exact (lnoStep_extends acc m).trans (foldl_lnoStep_extends ms _)

theorem foldl_lnoStep_pairwise {α : Type} :
    ∀ (ms : List ((Int × Int) × α)) (acc : List (Int × Int × α)),
      acc.Pairwise (fun s t => spanOverlapsB (s.1, s.2.1) (t.1, t.2.1) = false) →
      (ms.foldl lnoStep acc).Pairwise
        (fun s t => spanOverlapsB (s.1, s.2.1) (t.1, t.2.1) = false)
  | [], acc, h => h
  | m :: ms, acc, h => by
    rw [List.foldl_cons]
    refine foldl_lnoStep_pairwise ms _ ?_
    unfold lnoStep
    split_ifs with hov
    · exact h
    · rw [List.pairwise_append]
      refine ⟨h, List.pairwise_singleton _ _, ?_⟩
      intro s hs t ht
      rw [List.mem_singleton.mp ht]
      have hno : ∀ u ∈ acc, spanOverlapsB m.1 (u.1, u.2.1) = false := by
        intro u hu
        by_contra hcon
        exact hov (List.any_eq_true.mpr ⟨u, hu, by simpa using hcon⟩)
      rw [spanOverlapsB_comm]
      exact hno s hs

theorem foldl_lnoStep_sublist {α : Type} :
    ∀ (ms : List ((Int × Int) × α)) (acc : List (Int × Int × α)),
      ∃ S, ms.foldl lnoStep acc = acc ++ S
        ∧ S.Sublist (ms.map (fun m => (m.1.1, m.1.2, m.2)))
  | [], acc => ⟨[], by simp⟩
  | m :: ms, acc => by
    rw [List.foldl_cons]
    by_cases hov : (acc.any fun t => spanOverlapsB m.1 (t.1, t.2.1)) = true
    · have hstep : lnoStep acc m = acc := by
        unfold lnoStep
        rw [if_pos hov]
      rw [hstep]
      obtain ⟨S, hS, hsub⟩ := foldl_lnoStep_sublist ms acc
      exact ⟨S, hS, hsub.trans (List.sublist_cons_self _ _)⟩
    · have hstep : lnoStep acc m = acc ++ [(m.1.1, m.1.2, m.2)] := by
        unfold lnoStep
        rw [if_neg hov]
      rw [hstep]
      obtain ⟨S, hS, hsub⟩ := foldl_lnoStep_sublist ms (acc ++ [(m.1.1, m.1.2, m.2)])
      refine ⟨(m.1.1, m.1.2, m.2) :: S, ?_, ?_⟩
      · rw [hS, List.append_assoc]
        rfl
      · rw [List.map_cons]
        exact hsub.cons₂ _

theorem foldl_lnoStep_covers {α : Type} :
    ∀ (ms : List ((Int × Int) × α)) (acc : List (Int × Int × α)),
      ∀ m ∈ ms, (m.1.1, m.1.2, m.2) ∈ ms.foldl lnoStep acc
        ∨ ∃ t ∈ ms.foldl lnoStep acc, spanOverlapsB m.1 (t.1, t.2.1) = true
  | [], acc => by intro m hm; cases hm
  | m₀ :: ms, acc => by
    intro m hm
    rw [List.foldl_cons]
    rcases List.mem_cons.mp hm with rfl | hm'
    · unfold lnoStep
      split_ifs with hov
      · obtain ⟨t, ht, hov'⟩ := List.any_eq_true.mp hov
        exact Or.inr ⟨t, (foldl_lnoStep_extends ms acc).subset ht, by simpa using hov'⟩
      · exact Or.inl ((foldl_lnoStep_extends ms _).subset
          (List.mem_append_right acc (List.mem_singleton_self _)))
    · exact foldl_lnoStep_covers ms _ m hm'

/-- **C8 counterexample.**  `longest_non_overlapping` is first-come greedy in
raw-match order, not longest-first: on two overlapping mlist listed
shorter-first it keeps the shorter span `(0,1)` and discards the longer
`(0,5)`, while the selection the claim describes (decreasing span length)
keeps `(0,5)`. -/
theorem C8_counterexample :
    longest_non_overlapping c8Matches ≠ longestFirstSelection c8Matches
    ∧ spanOverlapsB (0, 1) (0, 5) = true
    ∧ (0, 1, 0) ∈ longest_non_overlapping c8Matches
    ∧ ((0, 5, 1) ∈ longest_non_overlapping c8Matches → False) := by
  refine ⟨by decide, by decide, by decide, by decide⟩

/-- **C8 (amended).**  Overlap resolution is first-come greedy in the raw
match-list order: the kept triples are the spans of a subsequence of the
input (in input order, not re-sorted by length), kept spans are pairwise
non-overlapping, and every input match is either kept or overlaps some kept
span. -/
theorem C8_overlap_resolution_amended {α : Type} (mlist : List ((Int × Int) × α)) :
    (longest_non_overlapping mlist).Pairwise
        (fun s t => spanOverlapsB (s.1, s.2.1) (t.1, t.2.1) = false)
    ∧ (longest_non_overlapping mlist).Sublist
        (mlist.map (fun m => (m.1.1, m.1.2, m.2)))
    ∧ ∀ m ∈ mlist, (m.1.1, m.1.2, m.2) ∈ longest_non_overlapping mlist
        ∨ ∃ t ∈ longest_non_overlapping mlist, spanOverlapsB m.1 (t.1, t.2.1) = true := by
  refine ⟨foldl_lnoStep_pairwise mlist [] List.Pairwise.nil, ?_,
    foldl_lnoStep_covers mlist []⟩
  obtain ⟨S, hS, hsub⟩ := foldl_lnoStep_sublist (α := α) mlist []
  unfold longest_non_overlapping
  rw [hS, List.nil_append]
  exact hsub

/-! ## Claim C9: alias resolver containment stage -/

/-- One parsed line of `ohd_lexicon.jsonl` as `_load_lexicon` keeps it. -/
structure LexRecord where
  iri : List Char
  label : List Char
  synonyms : List (List Char)
  deriving Repr, DecidableEq

/-- The `{iri, label, iri_source}` dict `resolve_alias_to_ohd` returns. -/
structure ResolvedAlias where
  iri : List Char
  label : List Char
  iri_source : List Char
  deriving Repr, DecidableEq

/-- Stage 1: the first record with `rec[label].lower() == alias_l`. -/
def firstLabelMatch (alias_l : List Char) : List LexRecord → Option LexRecord
  | [] => none
  | r :: rs => if lowerL r.label == alias_l then some r else firstLabelMatch alias_l rs

/-- Stage 2: the first record one of whose synonyms lowercases to `alias_l`. -/
def firstSynMatch (alias_l : List Char) : List LexRecord → Option LexRecord
  | [] => none
  | r :: rs => if r.synonyms.any (fun s => lowerL s == alias_l) then some r
               else firstSynMatch alias_l rs

/-- Stage 3 membership test: `alias_l in lbl_l or lbl_l in alias_l`, else the
same containment against each synonym (the inner loop with `break`). -/
def contPred (alias_l : List Char) (r : LexRecord) : Bool :=
  let lbl_l := lowerL r.label
  if decide (alias_l <:+: lbl_l) || decide (lbl_l <:+: alias_l) then true
  else r.synonyms.any (fun syn =>
    decide (alias_l <:+: lowerL syn) || decide (lowerL syn <:+: alias_l))

/-- `resolve_alias_to_ohd` on an already-loaded lexicon.  Stage 4 (FAISS
top-3 vector re-rank) returns `None` here: the repository ships no
`artifacts/vectors/ohd.faiss`, so the guarded `try` block falls through to
the final `return None`; under this claim's hypotheses stage 3 returns
first and stage 4 is unreachable anyway.  The `[]` arm of the final match
is unreachable (`sorted(cont, ...)[0]` is guarded by `if cont:`). -/
def resolve_alias_to_ohd (al : List Char) (lex : List LexRecord) :
    Option ResolvedAlias :=
  let alias_norm := pyStrip al
  if alias_norm.isEmpty then none
  else
    let alias_l := lowerL alias_norm
    if lex.isEmpty then none
    else match firstLabelMatch alias_l lex with
    | some r => some { iri := r.iri, label := r.label, iri_source := "ohd_label".toList }
    | none => match firstSynMatch alias_l lex with
      | some r => some { iri := r.iri, label := r.label,
                         iri_source := "ohd_synonym".toList }
      | none =>
        let cont := lex.filter (contPred alias_l)
        if cont.isEmpty then none
        else match cont.insertionSort (fun a b => a.label.length ≤ b.label.length) with
          | [] => none
          | best :: _ => some { iri := best.iri, label := best.label,
                                iri_source := "resolved_alias".toList }

def c9Lex : List LexRecord := [{ iri := "I1".toList, label := "implant".toList,
                                 synonyms := [] }]

/-- **C9 counterexample.**  A blank alias: Python substring containment
makes the empty string an infix of every label, so the claim's hypotheses
hold over `c9Lex` (no exact label match, no synonym match, a containment
match), yet `resolve_alias_to_ohd` returns `None` because the stripped
alias is empty and the function bails out before any lexicon stage. -/
theorem C9_counterexample :
    resolve_alias_to_ohd "".toList c9Lex = none
    ∧ (∀ r ∈ c9Lex, lowerL r.label ≠ lowerL (pyStrip "".toList)
        ∧ ∀ s ∈ r.synonyms, lowerL s ≠ lowerL (pyStrip "".toList))
    ∧ ∃ r ∈ c9Lex, contPred (lowerL (pyStrip "".toList)) r = true := by
  refine ⟨by decide, by decide, by decide⟩

/-- The head of the stable `insertionSort` by label length is the first
minimum: everything before it in the input is strictly longer, everything
after it is at least as long. -/
theorem insertionSort_head_first_min :
    ∀ l : List LexRecord, l ≠ [] →
      ∃ r t pre post,
        l.insertionSort (fun a b => a.label.length ≤ b.label.length) = r :: t
        ∧ l = pre ++ r :: post
        ∧ (∀ q ∈ pre, r.label.length < q.label.length)
        ∧ (∀ q ∈ post, r.label.length ≤ q.label.length)
  | [], h => absurd rfl h
  | [a], _ => ⟨a, [], [], [], rfl, rfl, by simp, by simp⟩
  | a :: b :: l, _ => by
    obtain ⟨r, t, pre, post, hsort, hdec, hpre, hpost⟩ :=
      insertionSort_head_first_min (b :: l) (List.cons_ne_nil b l)
    rw [List.insertionSort]
    rw [hsort]
    simp only [List.orderedInsert]
    by_cases hle : a.label.length ≤ r.label.length
    · rw [if_pos hle]
      refine ⟨a, r :: t, [], b :: l, rfl, rfl, by simp, ?_⟩
      intro q hq
      rw [hdec] at hq
      rcases List.mem_append.mp hq with hq | hq
      · exact le_of_lt (lt_of_le_of_lt hle (hpre q hq))
      · rcases List.mem_cons.mp hq with rfl | hq
        · exact hle
        · exact le_trans hle (hpost q hq)
    · rw [if_neg hle]
      refine ⟨r, _, a :: pre, post, rfl, by rw [hdec]; rfl, ?_, hpost⟩
      intro q hq
      rcases List.mem_cons.mp hq with rfl | hq
      · exact not_le.mp hle
      · exact hpre q hq

/-- **C9 (amended).**  When the stripped alias is non-empty, the lexicon has
no exact (case-insensitive) label or synonym match, and the containment
stage collects at least one record, `resolve_alias_to_ohd` returns the
containment match with the shortest label, ties broken by the record
encountered first in lexicon order (stable sort by label length), tagged
`resolved_alias`. -/
theorem C9_containment_amended (al : List Char) (lex : List LexRecord)
    (hne : (pyStrip al).isEmpty = false)
    (hlab : firstLabelMatch (lowerL (pyStrip al)) lex = none)
    (hsyn : firstSynMatch (lowerL (pyStrip al)) lex = none)
    (hcont : (lex.filter (contPred (lowerL (pyStrip al)))).isEmpty = false) :
    ∃ r pre post,
      resolve_alias_to_ohd al lex
        = some { iri := r.iri, label := r.label, iri_source := "resolved_alias".toList }
      ∧ lex.filter (contPred (lowerL (pyStrip al))) = pre ++ r :: post
      ∧ (∀ q ∈ pre, r.label.length < q.label.length)
      ∧ (∀ q ∈ post, r.label.length ≤ q.label.length) := by
  have hlexne : lex.isEmpty = false := by
    cases lex with
    | nil => simp at hcont
    | cons a l => rfl
  obtain ⟨r, t, pre, post, hsort, hdec, hpre, hpost⟩ :=
    insertionSort_head_first_min (lex.filter (contPred (lowerL (pyStrip al))))
      (by
        intro hcon
        rw [hcon] at hcont
        simp at hcont)
  refine ⟨r, pre, post, ?_, hdec, hpre, hpost⟩
  unfold resolve_alias_to_ohd
  dsimp only
  rw [hne, hlab, hsyn, hlexne, hcont, hsort]
  rfl

def c9WitLex : List LexRecord := [{ iri := "I1".toList, label := "implant".toList,
                                    synonyms := [] }]

/-- Witness for the amended C9 at alias `"plant"` (a strict substring of
`"implant"`). -/
theorem C9_containment_amended_witness :
    ((pyStrip "plant".toList).isEmpty = false
      ∧ firstLabelMatch (lowerL (pyStrip "plant".toList)) c9WitLex = none
      ∧ firstSynMatch (lowerL (pyStrip "plant".toList)) c9WitLex = none
      ∧ (c9WitLex.filter (contPred (lowerL (pyStrip "plant".toList)))).isEmpty = false)
    ∧ ∃ r pre post,
        resolve_alias_to_ohd "plant".toList c9WitLex
          = some { iri := r.iri, label := r.label, iri_source := "resolved_alias".toList }
        ∧ c9WitLex.filter (contPred (lowerL (pyStrip "plant".toList))) = pre ++ r :: post
        ∧ (∀ q ∈ pre, r.label.length < q.label.length)
        ∧ (∀ q ∈ post, r.label.length ≤ q.label.length) :=
  ⟨⟨by decide, by decide, by decide, by decide⟩,
    C9_containment_amended "plant".toList c9WitLex
      (by decide) (by decide) (by decide) (by decide)⟩

end Dentil
